import Mathlib

/-!
# RegistroContable: the transaction manager of `script.js`

A shallow embedding of the class `TransactionManager` (lines 2 to 101 of
`script.js`) together with the fragments of the JavaScript platform it calls:
`Date.now`, `parseFloat`, `JSON.stringify`, `JSON.parse`, `localStorage`,
`String.prototype.toLowerCase`, `String.prototype.includes`,
`Array.prototype.sort` and `new Date(string)`.

Modelling conventions.

* Numbers are exact: a finite JavaScript number is a rational with a
  terminating decimal expansion (every double is one), and the three special
  values `NaN`, `Infinity`, `-Infinity` are kept as such.  Rounding of IEEE
  doubles and the sign of zero are not modelled.
* Strings are sequences of Unicode scalar values (Lean strings).
* A transaction is the six-field object built by `addTransaction`; `id` is the
  integer returned by `Date.now()`, `amount` is the number returned by
  `parseFloat`, the other four fields are the strings read from the form.
* The clock reading `Date.now()` is an explicit argument of `addTransaction`.
* `localStorage` is reduced to the single entry stored under the key
  `'transactions'`: `none` when `getItem` returns `null`.
* `Array.prototype.sort` is the algorithm of V8 for arrays of fewer than 64
  elements: the initial run is found and, when descending, reversed, and the
  remaining elements are placed by binary insertion.  A comparator result of
  `NaN` counts as `+0`, as in `SortCompare` of ECMAScript.
* `String.prototype.toLowerCase` is the algorithm of ECMAScript with the
  special casing of the capital sigma (`Final_Sigma`) and of the capital I
  with dot above; the lower case of the other characters outside Basic Latin
  and the properties `Cased` and `Case_Ignorable` are tables of the platform,
  a parameter of the model, while Basic Latin is built in.
-/

namespace RegistroContable

/-! ## Numbers -/

/-- A rational with a terminating decimal expansion. -/
def IsDecimal (q : ℚ) : Prop := ∃ (k : ℕ) (z : ℤ), q * (10 : ℚ) ^ k = (z : ℚ)

/-- The finite numbers of the model. -/
abbrev Decimal : Type := { q : ℚ // IsDecimal q }

namespace Decimal

/-- An integer as a finite number. -/
def ofInt (z : Int) : Decimal := ⟨(z : ℚ), 0, z, by simp⟩

instance (n : Nat) : OfNat Decimal n := ⟨ofInt (n : Int)⟩

/-- The number `n * 10 ^ e`. -/
def scaled (n : Nat) (e : Int) : Decimal :=
  ⟨(n : ℚ) * (10 : ℚ) ^ e, by
    rcases Int.le_total 0 e with h | h
    · obtain ⟨m, rfl⟩ := Int.eq_ofNat_of_zero_le h
      exact ⟨0, (n : ℤ) * 10 ^ m, by push_cast; rw [zpow_natCast]; ring⟩
    · obtain ⟨m, rfl⟩ := Int.exists_eq_neg_ofNat h
      refine ⟨m, (n : ℤ), ?_⟩
      rw [zpow_neg, zpow_natCast, mul_assoc, inv_mul_cancel₀ (by positivity)]
      simp⟩

/-- The sum of two finite numbers. -/
def add (a b : Decimal) : Decimal :=
  ⟨a.1 + b.1, by
    obtain ⟨ka, za, ha⟩ := a.2
    obtain ⟨kb, zb, hb⟩ := b.2
    refine ⟨ka + kb, za * 10 ^ kb + zb * 10 ^ ka, ?_⟩
    push_cast
    rw [← ha, ← hb, pow_add]
    ring⟩

/-- The opposite of a finite number. -/
def neg (a : Decimal) : Decimal :=
  ⟨- a.1, by
    obtain ⟨k, z, h⟩ := a.2
    refine ⟨k, - z, ?_⟩
    push_cast
    rw [← h]
    ring⟩

end Decimal

/-- A JavaScript number with exact finite values. -/
inductive JsNum where
  | nan
  | posInf
  | negInf
  | fin (q : Decimal)
  deriving DecidableEq, Repr

namespace JsNum

/-- The number `0`, the initial value of both `reduce` calls. -/
def zero : JsNum := fin (Decimal.ofInt 0)

/-- The operator `+` on numbers. -/
def add : JsNum → JsNum → JsNum
  | nan, _ => nan
  | _, nan => nan
  | posInf, negInf => nan
  | negInf, posInf => nan
  | posInf, _ => posInf
  | _, posInf => posInf
  | negInf, _ => negInf
  | _, negInf => negInf
  | fin a, fin b => fin (Decimal.add a b)

/-- Unary minus on numbers. -/
def neg : JsNum → JsNum
  | nan => nan
  | posInf => negInf
  | negInf => posInf
  | fin a => fin (Decimal.neg a)

/-- The operator `-` on numbers. -/
def sub (a b : JsNum) : JsNum := add a (neg b)

/-- `Number.isFinite`. -/
def isFinite : JsNum → Bool
  | fin _ => true
  | _ => false

instance : Add JsNum := ⟨add⟩

instance : Zero JsNum := ⟨zero⟩

end JsNum

/-! ## Characters and digits -/

/-- Value of a decimal digit character. -/
def digitVal (c : Char) : Nat := c.toNat - 48

/-- Value of a sequence of decimal digits, most significant first. -/
def digitsValue (ds : List Char) : Nat :=
  ds.foldl (fun n c => 10 * n + digitVal c) 0

/-- The character of a decimal digit `d < 10`. -/
def digitChar (d : Nat) : Char := Char.ofNat (48 + d)

/-- Decimal digits of a natural number, most significant first; `fuel` bounds
the number of digits produced. -/
def natDigitsAux : Nat → Nat → List Char
  | 0, _ => []
  | fuel + 1, n => if n < 10 then [digitChar n] else natDigitsAux fuel (n / 10) ++ [digitChar (n % 10)]

/-- Decimal digits of a natural number, `0` giving `"0"`. -/
def natDigits (n : Nat) : List Char := natDigitsAux (n + 1) n

/-- The white space and line terminator characters skipped by `parseFloat`
(`StrWhiteSpaceChar` of ECMAScript). -/
def isStrWhiteSpaceChar (c : Char) : Bool :=
  let n := c.toNat
  n = 0x09 || n = 0x0A || n = 0x0B || n = 0x0C || n = 0x0D || n = 0x20 || n = 0xA0 ||
  n = 0x1680 || (0x2000 ≤ n && n ≤ 0x200A) || n = 0x2028 || n = 0x2029 || n = 0x202F ||
  n = 0x205F || n = 0x3000 || n = 0xFEFF

/-- Exponent part `e`, `e+` or `e-` followed by at least one digit; `0` when
the text does not continue with a complete exponent part. -/
def exponentOf : List Char → Int
  | c :: r =>
    if c = 'e' ∨ c = 'E' then
      match r with
      | '-' :: r' =>
        let ds := r'.takeWhile Char.isDigit
        if ds = [] then 0 else - (digitsValue ds : Int)
      | '+' :: r' =>
        let ds := r'.takeWhile Char.isDigit
        if ds = [] then 0 else (digitsValue ds : Int)
      | _ =>
        let ds := r.takeWhile Char.isDigit
        if ds = [] then 0 else (digitsValue ds : Int)
    else 0
  | [] => 0

/-- The global function `parseFloat` applied to a string: leading white space
is dropped and the longest prefix that is a `StrDecimalLiteral` is read;
`NaN` when there is no such prefix. -/
def parseFloat (s : String) : JsNum :=
  let cs := s.toList.dropWhile isStrWhiteSpaceChar
  let signed : Bool × List Char :=
    match cs with
    | '-' :: r => (true, r)
    | '+' :: r => (false, r)
    | _ => (false, cs)
  let body := signed.2
  if "Infinity".toList.isPrefixOf body then
    (if signed.1 then JsNum.negInf else JsNum.posInf)
  else
    let ip := body.takeWhile Char.isDigit
    let r1 := body.dropWhile Char.isDigit
    let fp := match r1 with
      | '.' :: r => r.takeWhile Char.isDigit
      | _ => []
    let r2 := match r1 with
      | '.' :: r => r.dropWhile Char.isDigit
      | _ => r1
    if ip = [] ∧ fp = [] then JsNum.nan
    else
      let m := Decimal.scaled (digitsValue (ip ++ fp)) (exponentOf r2 - (fp.length : Int))
      JsNum.fin (if signed.1 then Decimal.neg m else m)

/-! ## Transactions -/

/-- The object stored by `addTransaction` (lines 21 to 28). -/
structure Transaction where
  id : Int
  date : String
  description : String
  amount : JsNum
  category : String
  type : String
  deriving DecidableEq, Repr

/-- The argument of `addTransaction`: the five form values, `amount` still a
string (lines 154 to 160). -/
structure TransactionInput where
  date : String
  description : String
  amount : String
  category : String
  type : String
  deriving DecidableEq, Repr

/-- The argument `updatedData` of `updateTransaction`: each property is either
present with a value or absent. -/
structure UpdatedData where
  id : Option Int := none
  date : Option String := none
  description : Option String := none
  amount : Option JsNum := none
  category : Option String := none
  type : Option String := none
  deriving DecidableEq, Repr

/-- The object spread of line 43 to 46: every property present in
`updatedData` replaces the property of the same name. -/
def spread (t : Transaction) (u : UpdatedData) : Transaction :=
  { id := u.id.getD t.id
    date := u.date.getD t.date
    description := u.description.getD t.description
    amount := u.amount.getD t.amount
    category := u.category.getD t.category
    type := u.type.getD t.type }

/-! ## `JSON.stringify` on the collection -/

/-- Hexadecimal digit (lower case) of `d < 16`. -/
def hexChar (d : Nat) : Char :=
  if d < 10 then Char.ofNat (48 + d) else Char.ofNat (87 + d)

/-- The escape of one character inside a JSON string (`QuoteJSONString`). -/
def escapeChar (c : Char) : List Char :=
  if c = '"' then ['\\', '"']
  else if c = '\\' then ['\\', '\\']
  else if c.toNat = 0x08 then ['\\', 'b']
  else if c.toNat = 0x09 then ['\\', 't']
  else if c.toNat = 0x0A then ['\\', 'n']
  else if c.toNat = 0x0C then ['\\', 'f']
  else if c.toNat = 0x0D then ['\\', 'r']
  else if c.toNat < 0x20 then ['\\', 'u', '0', '0', hexChar (c.toNat / 16), hexChar (c.toNat % 16)]
  else [c]

/-- The escaped characters of a string followed by the closing quote. -/
def quoteChars : List Char → List Char
  | [] => ['"']
  | c :: cs => escapeChar c ++ quoteChars cs

/-- The JSON text of a string (`QuoteJSONString`). -/
def quoteJSONString (s : String) : List Char := '"' :: quoteChars s.toList

/-- The least `k` (searched up to `fuel`) with `q * 10 ^ k` an integer. -/
def decimalScaleAux : Nat → ℚ → Nat
  | 0, _ => 0
  | fuel + 1, q => if q.den = 1 then 0 else decimalScaleAux fuel (q * 10) + 1

/-- The number of digits after the decimal point of a terminating decimal. -/
def decimalScale (q : ℚ) : Nat := decimalScaleAux q.den q

/-- The digits `ds` preceded by zeros up to the width `k`. -/
def padDigits (k : Nat) (ds : List Char) : List Char :=
  List.replicate (k - ds.length) '0' ++ ds

/-- The decimal text of a finite number (`Number::toString` in radix 10): the
sign, the integer part and, when the number is not an integer, the point and
the fractional digits without trailing zero.  ECMAScript switches to exponent notation at and above `1e21` and below `1e-6`;
the model keeps the positional notation there, which denotes the same number. -/
def numberToString (d : Decimal) : List Char :=
  let q : ℚ := d.1
  let k := decimalScale q
  let n : Nat := (q * (10 : ℚ) ^ k).num.natAbs
  let sign : List Char := if q < 0 then ['-'] else []
  if k = 0 then sign ++ natDigits n
  else sign ++ natDigits (n / 10 ^ k) ++ '.' :: padDigits k (natDigits (n % 10 ^ k))

/-- The JSON text of a number: non finite numbers are written `null`. -/
def serializeNumber : JsNum → List Char
  | JsNum.fin q => numberToString q
  | _ => ['n', 'u', 'l', 'l']

/-- One member `"key":value` of a JSON object. -/
def serializeMember (key : String) (value : List Char) : List Char :=
  quoteJSONString key ++ ':' :: value

/-- The JSON text of a transaction, its properties in creation order. -/
def serializeTransaction (t : Transaction) : List Char :=
  '\x7b' :: serializeMember "id" (numberToString (Decimal.ofInt t.id)) ++
    ',' :: serializeMember "date" (quoteJSONString t.date) ++
    ',' :: serializeMember "description" (quoteJSONString t.description) ++
    ',' :: serializeMember "amount" (serializeNumber t.amount) ++
    ',' :: serializeMember "category" (quoteJSONString t.category) ++
    ',' :: serializeMember "type" (quoteJSONString t.type) ++ ['\x7d']

/-- The elements of a non empty array followed by the closing bracket. -/
def serializeElements : Transaction → List Transaction → List Char
  | t, [] => serializeTransaction t ++ [']']
  | t, u :: us => serializeTransaction t ++ ',' :: serializeElements u us

/-- `JSON.stringify(this.transactions)`. -/
def stringify : List Transaction → String
  | [] => ⟨['[', ']']⟩
  | t :: ts => ⟨'[' :: serializeElements t ts⟩

/-! ## Platform functions used by the queries -/

/-- The tables of the Unicode character database that `toLowerCase` reads, for
the characters outside Basic Latin: the simple lower case mapping and the
properties `Cased` and `Case_Ignorable`. -/
structure CaseTables where
  lower : Char → Char
  cased : Char → Bool
  caseIgnorable : Char → Bool

/-- The simple lower case mapping of a character: the letters `A` to `Z` go to
`a` to `z`, the rest of Basic Latin is unchanged, the other characters follow
the table. -/
def lowerChar (T : CaseTables) (c : Char) : Char :=
  if c.toNat < 128 then c.toLower else T.lower c

/-- The property `Cased`: in Basic Latin the letters. -/
def isCased (T : CaseTables) (c : Char) : Bool :=
  if c.toNat < 128 then c.isAlpha else T.cased c

/-- The property `Case_Ignorable`: in Basic Latin the apostrophe, the full
stop, the colon, the circumflex accent and the grave accent. -/
def isCaseIgnorable (T : CaseTables) (c : Char) : Bool :=
  if c.toNat < 128 then
    c.toNat = 0x27 || c.toNat = 0x2E || c.toNat = 0x3A || c.toNat = 0x5E || c.toNat = 0x60
  else T.caseIgnorable c

/-- The characters on one side of a position, nearest first, are case
ignorable characters followed by a cased letter. -/
def casedNearby (T : CaseTables) : List Char → Bool
  | [] => false
  | c :: cs =>
    if isCased T c then true else if isCaseIgnorable T c then casedNearby T cs else false

/-- The lower case mapping of the characters `after`, which follow the
characters `before` (nearest first): a capital sigma in final position
(`Final_Sigma`: after a cased letter and not before one) becomes the final
small sigma, the capital I with dot above becomes `i` with a combining dot,
every other character takes its simple mapping. -/
def lowerChars (T : CaseTables) : List Char → List Char → List Char
  | _, [] => []
  | before, c :: after =>
    (if c.toNat = 0x3A3 ∧ casedNearby T before = true ∧ casedNearby T after = false then
        [Char.ofNat 0x3C2]
      else if c.toNat = 0x130 then ['i', Char.ofNat 0x307]
      else [lowerChar T c]) ++ lowerChars T (c :: before) after

/-- `String.prototype.toLowerCase`. -/
def toLowerCase (T : CaseTables) (s : String) : String := ⟨lowerChars T [] s.toList⟩

/-- The string holds neither the capital sigma nor the capital I with dot
above, the two characters whose lower case depends on the context or is
longer than one character. -/
def simplyCased (s : String) : Bool :=
  s.toList.all (fun c => c.toNat != 0x3A3 && c.toNat != 0x130)

/-- The string holds characters of Basic Latin only. -/
def isBasicLatin (s : String) : Bool := s.toList.all (fun c => decide (c.toNat < 128))

/-- The tables for the Greek letters alpha to omega and nothing else, an
instance for the examples. -/
def greekCaseTables : CaseTables :=
  { lower := fun c =>
      if 0x391 ≤ c.toNat ∧ c.toNat ≤ 0x3A9 ∧ c.toNat ≠ 0x3A2 then Char.ofNat (c.toNat + 32) else c
    cased := fun c =>
      (0x391 ≤ c.toNat && c.toNat ≤ 0x3A9 && c.toNat != 0x3A2) ||
        (0x3B1 ≤ c.toNat && c.toNat ≤ 0x3C9)
    caseIgnorable := fun _ => false }

/-- `String.prototype.includes` on character sequences: `t` occurs in `s`. -/
def includesChars : List Char → List Char → Bool
  | [], t => t.isEmpty
  | c :: cs, t => t.isPrefixOf (c :: cs) || includesChars cs t

/-- `s.includes(t)`. -/
def includes (s t : String) : Bool := includesChars s.toList t.toList

/-- The number `Array.prototype.sort` reads from a call of the comparator
(`SortCompare`): a `NaN` result, here `none`, counts as `+0`. -/
def sortCompare {α : Type} (comparefn : α → α → Option Int) (x y : α) : Int :=
  (comparefn x y).getD 0

/-- The loop of `CountAndMakeRun` of V8: the run that ends with `previous` is
extended over the following elements while they continue it; the elements
taken into the run and the elements left. -/
def extendRun {α : Type} (comparefn : α → α → Option Int) (descending : Bool) :
    α → List α → List α × List α
  | _, [] => ([], [])
  | previous, current :: rest =>
    if (if descending then decide (0 ≤ sortCompare comparefn current previous)
        else decide (sortCompare comparefn current previous < 0)) then ([], current :: rest)
    else ((current :: (extendRun comparefn descending current rest).1),
      (extendRun comparefn descending current rest).2)

/-- `CountAndMakeRun` of V8: the run at the start of the array, reversed when it
is strictly descending, and the elements after it. -/
def countAndMakeRun {α : Type} (comparefn : α → α → Option Int) : List α → List α × List α
  | a0 :: a1 :: rest =>
    if sortCompare comparefn a1 a0 < 0 then
      ((a0 :: a1 :: (extendRun comparefn true a1 rest).1).reverse,
        (extendRun comparefn true a1 rest).2)
    else
      (a0 :: a1 :: (extendRun comparefn false a1 rest).1, (extendRun comparefn false a1 rest).2)
  | l => (l, [])

/-- The binary search of `BinaryInsertionSort` of V8 between the positions
`left` and `right` of the sorted part: the position at which `pivot` is put.
The distance halves at every step, so a `fuel` above it is never exhausted. -/
def insertionPoint {α : Type} (comparefn : α → α → Option Int) (pivot : α)
    (sorted : List α) : Nat → Nat → Nat → Nat
  | 0, left, _ => left
  | fuel + 1, left, right =>
    if left < right then
      match sorted[left + (right - left) / 2]? with
      | some x =>
        if sortCompare comparefn pivot x < 0 then
          insertionPoint comparefn pivot sorted fuel left (left + (right - left) / 2)
        else insertionPoint comparefn pivot sorted fuel (left + (right - left) / 2 + 1) right
      | none => left
    else left

/-- One step of `BinaryInsertionSort` of V8: `pivot`, the element after the
sorted part, is moved to its position in it. -/
def binaryInsert {α : Type} (comparefn : α → α → Option Int) (sorted : List α) (pivot : α) :
    List α :=
  sorted.take (insertionPoint comparefn pivot sorted (sorted.length + 1) 0 sorted.length) ++
    pivot :: sorted.drop (insertionPoint comparefn pivot sorted (sorted.length + 1) 0 sorted.length)

/-- `Array.prototype.sort(comparefn)` as V8 (Chrome, Node.js) computes it on an
array of fewer than 64 elements: the run at the start is found, then every
further element is put in place by binary insertion.  For a consistent
comparator this is the stable sort that ECMAScript prescribes, whatever the
length.  For a comparator that is not consistent ECMAScript leaves the order
to the implementation; the order is then the one of V8 below 64 elements, and
the merging of runs that V8 does from 64 elements on is not modelled. -/
def arraySortV8 {α : Type} (comparefn : α → α → Option Int) (l : List α) : List α :=
  (countAndMakeRun comparefn l).2.foldl (binaryInsert comparefn) (countAndMakeRun comparefn l).1

/-- Days from 1970-01-01 to the given civil date of the proleptic Gregorian
calendar. -/
def daysFromCivil (y m d : Int) : Int :=
  let y1 := if m ≤ 2 then y - 1 else y
  let era := y1 / 400
  let yoe := y1 - era * 400
  let mp := if m ≤ 2 then m + 9 else m - 3
  let doy := (153 * mp + 2) / 5 + d - 1
  let doe := yoe * 365 + yoe / 4 - yoe / 100 + doy
  era * 146097 + doe - 719468

/-- Number of days of month `m` in year `y`. -/
def daysInMonth (y m : Int) : Int :=
  if m = 2 then (if y % 4 = 0 ∧ (y % 100 ≠ 0 ∨ y % 400 = 0) then 29 else 28)
  else if m = 4 ∨ m = 6 ∨ m = 9 ∨ m = 11 then 30 else 31

/-- The time value of `new Date(s)` for the date-only form `YYYY-MM-DD` that a
date input yields, in milliseconds since the epoch (UTC); `none` stands for
`NaN`, the time value of an invalid date.  Other formats are not modelled and
are taken as invalid. -/
def isoTimeValue (s : String) : Option Int :=
  match s.toList with
  | [y1, y2, y3, y4, '-', m1, m2, '-', d1, d2] =>
    if [y1, y2, y3, y4, m1, m2, d1, d2].all Char.isDigit then
      let y : Int := digitsValue [y1, y2, y3, y4]
      let m : Int := digitsValue [m1, m2]
      let d : Int := digitsValue [d1, d2]
      if 1 ≤ m ∧ m ≤ 12 ∧ 1 ≤ d ∧ d ≤ daysInMonth y m then
        some (daysFromCivil y m d * 86400000)
      else none
    else none
  | _ => none

/-! ## JavaScript values and `JSON.parse` -/

/-- The values `JSON.parse` can return, and the values the collection is
compared with: objects list their properties in creation order. -/
inductive JsVal where
  | null
  | bool (b : Bool)
  | num (n : JsNum)
  | str (s : String)
  | arr (elements : List JsVal)
  | obj (properties : List (String × JsVal))

/-- The transaction as a JavaScript value: the object literal of lines 21 to
28. -/
def Transaction.toJsVal (t : Transaction) : JsVal :=
  JsVal.obj
    [("id", JsVal.num (JsNum.fin (Decimal.ofInt t.id))),
     ("date", JsVal.str t.date),
     ("description", JsVal.str t.description),
     ("amount", JsVal.num t.amount),
     ("category", JsVal.str t.category),
     ("type", JsVal.str t.type)]

/-- The collection as a JavaScript value: the array of its transactions. -/
def collectionValue (ts : List Transaction) : JsVal :=
  JsVal.arr (ts.map Transaction.toJsVal)

/-- The value read back from the JSON text of a number: a number that is not
finite has been written `null`. -/
def JsNum.reloaded : JsNum → JsVal
  | JsNum.fin q => JsVal.num (JsNum.fin q)
  | _ => JsVal.null

/-- The value read back from the JSON text of a transaction. -/
def Transaction.reloaded (t : Transaction) : JsVal :=
  JsVal.obj
    [("id", JsVal.num (JsNum.fin (Decimal.ofInt t.id))),
     ("date", JsVal.str t.date),
     ("description", JsVal.str t.description),
     ("amount", t.amount.reloaded),
     ("category", JsVal.str t.category),
     ("type", JsVal.str t.type)]

/-- The text after a JSON number continues with none of its characters. -/
def NumberEnd (tail : List Char) : Prop :=
  ∀ c r, tail = c :: r → c.isDigit = false ∧ c ≠ '.' ∧ c ≠ 'e' ∧ c ≠ 'E'

/-- The outcomes of `JSON.parse` other than a value.  `syntaxError` is the
`SyntaxError` thrown on a text that is not JSON.  `unrepresentable` marks a
text with the escape of a lone surrogate, whose strings lie outside the
modelled ones.  `outOfFuel` is returned when the recursion bound of the model
is exhausted. -/
inductive ParseError where
  | syntaxError
  | unrepresentable
  | outOfFuel
  deriving DecidableEq, Repr

/-- JSON white space. -/
def isJsonWhiteSpace (c : Char) : Bool :=
  c.toNat = 0x09 || c.toNat = 0x0A || c.toNat = 0x0D || c.toNat = 0x20

/-- The text after its leading JSON white space. -/
def skipWs (cs : List Char) : List Char := cs.dropWhile isJsonWhiteSpace

/-- Value of a hexadecimal digit. -/
def hexVal (c : Char) : Option Nat :=
  if c.isDigit then some (c.toNat - 48)
  else if 97 ≤ c.toNat ∧ c.toNat ≤ 102 then some (c.toNat - 87)
  else if 65 ≤ c.toNat ∧ c.toNat ≤ 70 then some (c.toNat - 55)
  else none

/-- Value of four hexadecimal digits. -/
def hex4 (a b c d : Char) : Option Nat :=
  match hexVal a, hexVal b, hexVal c, hexVal d with
  | some w, some x, some y, some z => some (((w * 16 + x) * 16 + y) * 16 + z)
  | _, _, _, _ => none

/-- The character denoted by a one letter escape `\\c` of a JSON string. -/
def simpleEscape (c : Char) : Option Char :=
  if c = '"' then some '"'
  else if c = '\\' then some '\\'
  else if c = '/' then some '/'
  else if c = 'b' then some (Char.ofNat 0x08)
  else if c = 'f' then some (Char.ofNat 0x0C)
  else if c = 'n' then some (Char.ofNat 0x0A)
  else if c = 'r' then some (Char.ofNat 0x0D)
  else if c = 't' then some (Char.ofNat 0x09)
  else none

/-- The characters of a JSON string after its opening quote, up to the closing
quote: the string read (`acc` holds the characters read so far, last first)
and the text after the closing quote.  Every step reads at least one
character, so a `fuel` above the length of the text is never exhausted. -/
def parseStringChars : Nat → List Char → List Char →
    Except ParseError (List Char × List Char)
  | 0, _, _ => Except.error ParseError.outOfFuel
  | _ + 1, [], _ => Except.error ParseError.syntaxError
  | fuel + 1, c :: r, acc =>
    if c = '"' then Except.ok (acc.reverse, r)
    else if c = '\\' then
      match r with
      | [] => Except.error ParseError.syntaxError
      | e :: r1 =>
        if e = 'u' then
          match r1 with
          | h1 :: h2 :: h3 :: h4 :: r2 =>
            match hex4 h1 h2 h3 h4 with
            | none => Except.error ParseError.syntaxError
            | some n =>
              if 0xD800 ≤ n ∧ n ≤ 0xDBFF then
                match r2 with
                | b :: u :: l1 :: l2 :: l3 :: l4 :: r3 =>
                  if b = '\\' ∧ u = 'u' then
                    match hex4 l1 l2 l3 l4 with
                    | none => Except.error ParseError.syntaxError
                    | some lo =>
                      if 0xDC00 ≤ lo ∧ lo ≤ 0xDFFF then
                        parseStringChars fuel r3
                          (Char.ofNat (0x10000 + (n - 0xD800) * 0x400 + (lo - 0xDC00)) :: acc)
                      else Except.error ParseError.unrepresentable
                  else Except.error ParseError.unrepresentable
                | _ => Except.error ParseError.unrepresentable
              else if 0xDC00 ≤ n ∧ n ≤ 0xDFFF then Except.error ParseError.unrepresentable
              else parseStringChars fuel r2 (Char.ofNat n :: acc)
          | _ => Except.error ParseError.syntaxError
        else
          match simpleEscape e with
          | some x => parseStringChars fuel r1 (x :: acc)
          | none => Except.error ParseError.syntaxError
    else if c.toNat < 0x20 then Except.error ParseError.syntaxError
    else parseStringChars fuel r (c :: acc)

/-- A JSON string after its opening quote and the text after its closing
quote. -/
def parseString (cs : List Char) : Except ParseError (String × List Char) :=
  match parseStringChars (cs.length + 1) cs [] with
  | Except.error e => Except.error e
  | Except.ok (s, r) => Except.ok (⟨s⟩, r)

/-- The fraction part of a JSON number: the digits after an optional point
(at least one after a point) and the remaining text. -/
def parseFraction : List Char → Except ParseError (List Char × List Char)
  | [] => Except.ok ([], [])
  | c :: r =>
    if c = '.' then
      (if r.takeWhile Char.isDigit = [] then Except.error ParseError.syntaxError
       else Except.ok (r.takeWhile Char.isDigit, r.dropWhile Char.isDigit))
    else Except.ok ([], c :: r)

/-- The digits of an exponent (at least one) read as a natural number. -/
def parseExponentDigits (r : List Char) : Except ParseError (Nat × List Char) :=
  if r.takeWhile Char.isDigit = [] then Except.error ParseError.syntaxError
  else Except.ok (digitsValue (r.takeWhile Char.isDigit), r.dropWhile Char.isDigit)

/-- The exponent part of a JSON number, `0` when there is none. -/
def parseExponent : List Char → Except ParseError (Int × List Char)
  | [] => Except.ok (0, [])
  | c :: r =>
    if c = 'e' ∨ c = 'E' then
      match r with
      | [] => Except.error ParseError.syntaxError
      | s :: r' =>
        if s = '-' then
          match parseExponentDigits r' with
          | Except.error e => Except.error e
          | Except.ok (n, r'') => Except.ok (- (n : Int), r'')
        else if s = '+' then
          match parseExponentDigits r' with
          | Except.error e => Except.error e
          | Except.ok (n, r'') => Except.ok ((n : Int), r'')
        else
          match parseExponentDigits (s :: r') with
          | Except.error e => Except.error e
          | Except.ok (n, r'') => Except.ok ((n : Int), r'')
    else Except.ok (0, c :: r)

/-- The integer part of a JSON number: `0` alone or a digit from `1` to `9`
followed by digits. -/
def parseIntegerPart : List Char → Except ParseError (List Char × List Char)
  | c :: r =>
    if c = '0' then Except.ok (['0'], r)
    else if c.isDigit then Except.ok (c :: r.takeWhile Char.isDigit, r.dropWhile Char.isDigit)
    else Except.error ParseError.syntaxError
  | [] => Except.error ParseError.syntaxError

/-- The unsigned part of a JSON number and the remaining text. -/
def parseUnsigned (cs : List Char) : Except ParseError (Decimal × List Char) :=
  match parseIntegerPart cs with
  | Except.error e => Except.error e
  | Except.ok (ip, r1) =>
    match parseFraction r1 with
    | Except.error e => Except.error e
    | Except.ok (fp, r2) =>
      match parseExponent r2 with
      | Except.error e => Except.error e
      | Except.ok (ex, r3) =>
        Except.ok (Decimal.scaled (digitsValue (ip ++ fp)) (ex - (fp.length : Int)), r3)

/-- A JSON number and the remaining text. -/
def parseNumber : List Char → Except ParseError (Decimal × List Char)
  | [] => Except.error ParseError.syntaxError
  | c :: r =>
    if c = '-' then
      match parseUnsigned r with
      | Except.error e => Except.error e
      | Except.ok (q, r') => Except.ok (Decimal.neg q, r')
    else parseUnsigned (c :: r)

/-- `CreateDataProperty` on the property list of an object under
construction: a repeated key keeps its place and takes the new value.  The
properties stay in the order of the text; that JavaScript lists keys that are
array indices first is not modelled, no key of a transaction is one. -/
def setProperty : List (String × JsVal) → String → JsVal → List (String × JsVal)
  | [], k, v => [(k, v)]
  | (k', v') :: ps, k, v => if k' = k then (k, v) :: ps else (k', v') :: setProperty ps k v

mutual

/-- A JSON value, after optional white space, and the remaining text. -/
def parseValue : Nat → List Char → Except ParseError (JsVal × List Char)
  | 0, _ => Except.error ParseError.outOfFuel
  | fuel + 1, cs =>
    match skipWs cs with
    | [] => Except.error ParseError.syntaxError
    | c :: r =>
      if c = '\x7b' then
        match skipWs r with
        | [] => Except.error ParseError.syntaxError
        | c' :: r' =>
          if c' = '\x7d' then Except.ok (JsVal.obj [], r')
          else parseMembers fuel (c' :: r') []
      else if c = '[' then
        match skipWs r with
        | [] => Except.error ParseError.syntaxError
        | c' :: r' =>
          if c' = ']' then Except.ok (JsVal.arr [], r')
          else parseElements fuel (c' :: r') []
      else if c = '"' then
        match parseString r with
        | Except.error e => Except.error e
        | Except.ok (s, r') => Except.ok (JsVal.str s, r')
      else if c = 't' then
        (if ['r', 'u', 'e'].isPrefixOf r then Except.ok (JsVal.bool true, r.drop 3)
         else Except.error ParseError.syntaxError)
      else if c = 'f' then
        (if ['a', 'l', 's', 'e'].isPrefixOf r then Except.ok (JsVal.bool false, r.drop 4)
         else Except.error ParseError.syntaxError)
      else if c = 'n' then
        (if ['u', 'l', 'l'].isPrefixOf r then Except.ok (JsVal.null, r.drop 3)
         else Except.error ParseError.syntaxError)
      else
        match parseNumber (c :: r) with
        | Except.error e => Except.error e
        | Except.ok (q, r') => Except.ok (JsVal.num (JsNum.fin q), r')

/-- The elements of a non empty array up to the closing bracket; `acc` holds
the elements read so far, last first. -/
def parseElements : Nat → List Char → List JsVal → Except ParseError (JsVal × List Char)
  | 0, _, _ => Except.error ParseError.outOfFuel
  | fuel + 1, cs, acc =>
    match parseValue fuel cs with
    | Except.error e => Except.error e
    | Except.ok (v, r) =>
      match skipWs r with
      | [] => Except.error ParseError.syntaxError
      | c :: r' =>
        if c = ',' then parseElements fuel r' (v :: acc)
        else if c = ']' then Except.ok (JsVal.arr (v :: acc).reverse, r')
        else Except.error ParseError.syntaxError

/-- The members of a non empty object up to the closing brace; `acc` holds the
properties created so far. -/
def parseMembers : Nat → List Char → List (String × JsVal) →
    Except ParseError (JsVal × List Char)
  | 0, _, _ => Except.error ParseError.outOfFuel
  | fuel + 1, cs, acc =>
    match skipWs cs with
    | [] => Except.error ParseError.syntaxError
    | c :: r =>
      if c = '"' then
        match parseString r with
        | Except.error e => Except.error e
        | Except.ok (k, r1) =>
          match skipWs r1 with
          | [] => Except.error ParseError.syntaxError
          | c1 :: r2 =>
            if c1 = ':' then
              match parseValue fuel r2 with
              | Except.error e => Except.error e
              | Except.ok (v, r3) =>
                match skipWs r3 with
                | [] => Except.error ParseError.syntaxError
                | c3 :: r4 =>
                  if c3 = ',' then parseMembers fuel r4 (setProperty acc k v)
                  else if c3 = '\x7d' then Except.ok (JsVal.obj (setProperty acc k v), r4)
                  else Except.error ParseError.syntaxError
            else Except.error ParseError.syntaxError
      else Except.error ParseError.syntaxError

end

/-- `JSON.parse(text)`: the value of a JSON text, which may be surrounded by
white space. -/
def jsonParse (text : String) : Except ParseError JsVal :=
  match parseValue (2 * text.length + 2) text.toList with
  | Except.error e => Except.error e
  | Except.ok (v, r) =>
    if skipWs r = [] then Except.ok v else Except.error ParseError.syntaxError

/-- `loadFromStorage()` (lines 9 to 12) on the entry `data` that
`localStorage.getItem` returns: the value assigned to `this.transactions` by
the constructor (lines 3 to 6), or the exception that leaves it. -/
def loadFromStorage (data : Option String) : Except ParseError JsVal :=
  match data with
  | some text => if text ≠ "" then jsonParse text else Except.ok (JsVal.arr [])
  | none => Except.ok (JsVal.arr [])

/-! ## The class `TransactionManager` -/

/-- The state of a manager: the array `this.transactions` and the entry of
`localStorage` under `this.storageKey`. -/
structure TransactionManager where
  transactions : List Transaction
  localStorage : Option String
  deriving DecidableEq, Repr

namespace TransactionManager

/-- `saveToStorage()` (lines 15 to 17). -/
def saveToStorage (m : TransactionManager) : TransactionManager :=
  { m with localStorage := some (stringify m.transactions) }

/-- `addTransaction(transaction)` (lines 20 to 32) at the clock reading `now`:
returns the new transaction and the state after the call. -/
def addTransaction (now : Int) (transaction : TransactionInput) (m : TransactionManager) :
    Transaction × TransactionManager :=
  let newTransaction : Transaction :=
    { id := now
      date := transaction.date
      description := transaction.description
      amount := parseFloat transaction.amount
      category := transaction.category
      type := transaction.type }
  let m1 := { m with transactions := m.transactions ++ [newTransaction] }
  (newTransaction, saveToStorage m1)

/-- `getTransaction(id)` (lines 35 to 37); `none` stands for `undefined`. -/
def getTransaction (id : Int) (m : TransactionManager) : Option Transaction :=
  m.transactions.find? (fun t => decide (t.id = id))

/-- `updateTransaction(id, updatedData)` (lines 40 to 51); `none` stands for
`null`. -/
def updateTransaction (id : Int) (updatedData : UpdatedData) (m : TransactionManager) :
    Option Transaction × TransactionManager :=
  match m.transactions.findIdx? (fun t => decide (t.id = id)) with
  | some index =>
    let m1 := { m with
      transactions := m.transactions.modify (fun t => spread t updatedData) index }
    let m2 := saveToStorage m1
    (m2.transactions[index]?, m2)
  | none => (none, m)

/-- `deleteTransaction(id)` (lines 54 to 62). -/
def deleteTransaction (id : Int) (m : TransactionManager) : Bool × TransactionManager :=
  match m.transactions.findIdx? (fun t => decide (t.id = id)) with
  | some index =>
    let m1 := { m with transactions := m.transactions.eraseIdx index }
    (true, saveToStorage m1)
  | none => (false, m)

/-- `clearAll()` (lines 65 to 68). -/
def clearAll (m : TransactionManager) : TransactionManager :=
  saveToStorage { m with transactions := [] }

/-- `filterTransactions(searchTerm)` (lines 71 to 76); `T` holds the tables
of the platform that `toLowerCase` reads. -/
def filterTransactions (T : CaseTables) (searchTerm : String)
    (m : TransactionManager) : List Transaction :=
  m.transactions.filter (fun t =>
    includes (toLowerCase T t.description) (toLowerCase T searchTerm) ||
    includes (toLowerCase T t.category) (toLowerCase T searchTerm))

/-- The object returned by `getCalculations`. -/
structure Calculations where
  ingresos : JsNum
  egresos : JsNum
  balance : JsNum
  deriving DecidableEq, Repr

/-- `getCalculations()` (lines 79 to 93). -/
def getCalculations (m : TransactionManager) : Calculations :=
  let ingresos := (m.transactions.filter (fun t => decide (t.type = "Ingreso"))).foldl
    (fun sum t => JsNum.add sum t.amount) JsNum.zero
  let egresos := (m.transactions.filter (fun t => decide (t.type = "Egreso"))).foldl
    (fun sum t => JsNum.add sum t.amount) JsNum.zero
  { ingresos := ingresos, egresos := egresos, balance := JsNum.sub ingresos egresos }

/-- The comparator of line 97 and 98, `new Date(b.date) - new Date(a.date)`;
`timeValue` gives the time value of `new Date(s)`, `none` being `NaN`. -/
def compareByDate (timeValue : String → Option Int) (a b : Transaction) : Option Int :=
  match timeValue b.date, timeValue a.date with
  | some tb, some ta => some (tb - ta)
  | _, _ => none

/-- `getSortedTransactions()` (lines 96 to 100): the sorted copy and the state
after the call. -/
def getSortedTransactions (timeValue : String → Option Int) (m : TransactionManager) :
    List Transaction × TransactionManager :=
  let copy := m.transactions
  (arraySortV8 (compareByDate timeValue) copy, m)

end TransactionManager

/-! ## Auxiliary notions of the statements -/

/-- A sequence of `addTransaction` calls, each with its clock reading: the
returned transactions in call order and the state after the last call. -/
def addTransactions : List (Int × TransactionInput) → TransactionManager →
    List Transaction × TransactionManager
  | [], m => ([], m)
  | (now, transaction) :: calls, m =>
    let r := TransactionManager.addTransaction now transaction m
    let rest := addTransactions calls r.2
    (r.1 :: rest.1, rest.2)

/-- The result of a parsing function is not an exhaustion of the fuel, and a
value comes with a remaining text shorter than `n`. -/
def Progress {α : Type} (n : Nat) : Except ParseError (α × List Char) → Prop
  | Except.ok (_, r) => r.length < n
  | Except.error e => e ≠ ParseError.outOfFuel

/-- The first candidate of the scenario of the specification. -/
def salary : TransactionInput :=
  { date := "2024-01-05", description := "Salary", amount := "1000", category := "Work",
    type := "Ingreso" }

/-- The second candidate of the scenario of the specification. -/
def rent : TransactionInput :=
  { date := "2024-01-01", description := "Rent", amount := "400", category := "Housing",
    type := "Egreso" }

/-- A manager with no transaction and an empty backend. -/
def emptyManager : TransactionManager := { transactions := [], localStorage := none }

/-- The manager after the two candidates of the scenario have been added at
the clock readings `1700000000000` and `1700000000001`. -/
def scenarioManager : TransactionManager :=
  (addTransactions [(1700000000000, salary), (1700000000001, rent)] emptyManager).2

/-- Seven records added at the clock readings `1` to `7`; the date of the
third is the empty string, the date of the first is `2024-01-01`, the date
of the others `2024-01-02`. -/
def invalidDateManager : TransactionManager :=
  (addTransactions
    [(1, ⟨"2024-01-01", "Rent", "400", "Housing", "Egreso"⟩),
     (2, ⟨"2024-01-02", "Salary", "1000", "Work", "Ingreso"⟩),
     (3, ⟨"", "Gift", "50", "Other", "Ingreso"⟩),
     (4, ⟨"2024-01-02", "Bread", "3", "Food", "Egreso"⟩),
     (5, ⟨"2024-01-02", "Milk", "2", "Food", "Egreso"⟩),
     (6, ⟨"2024-01-02", "Bus", "1", "Transport", "Egreso"⟩),
     (7, ⟨"2024-01-02", "Book", "20", "Leisure", "Egreso"⟩)] emptyManager).2

/-- One record, of description `ΑΣ` (capital alpha, capital sigma), added to
the empty manager. -/
def sigmaManager : TransactionManager :=
  (TransactionManager.addTransaction 1700000000000
    ⟨"2024-01-05", "ΑΣ", "10", "Otros", "Egreso"⟩ emptyManager).2

/-- Every amount of the collection is a finite number. -/
def allFinite (ts : List Transaction) : Bool := ts.all (fun t => t.amount.isFinite)

/-- A manager constructed now from the backend would hold a collection equal
to the one in memory. -/
def Synced (m : TransactionManager) : Prop :=
  loadFromStorage m.localStorage = Except.ok (collectionValue m.transactions)

open TransactionManager

/-! ## Lemmas on the store operations -/

theorem addTransaction_id (now : Int) (i : TransactionInput) (m : TransactionManager) :
    (addTransaction now i m).1.id = now := rfl

theorem addTransaction_transactions (now : Int) (i : TransactionInput) (m : TransactionManager) :
    (addTransaction now i m).2.transactions = m.transactions ++ [(addTransaction now i m).1] := rfl

theorem addTransactions_ids (calls : List (Int × TransactionInput)) (m : TransactionManager) :
    (addTransactions calls m).1.map Transaction.id = calls.map Prod.fst ∧
    (addTransactions calls m).2.transactions.map Transaction.id =
      m.transactions.map Transaction.id ++ calls.map Prod.fst := by
  induction calls generalizing m with
  | nil => simp [addTransactions]
  | cons c calls ih =>
    obtain ⟨now, i⟩ := c
    have h := ih (addTransaction now i m).2
    simp only [addTransactions, List.map_cons, h.1, h.2, addTransaction_transactions,
      List.map_append, addTransaction_id, List.map_nil, List.append_assoc, List.singleton_append,
      and_self]


theorem findIdx?_some_of_mem {α : Type} (p : α → Bool) (l : List α)
    (h : ∃ x ∈ l, p x = true) :
    ∃ i x, l.findIdx? p = some i ∧ l[i]? = some x ∧ p x = true := by
  have h1 := List.findIdx?_eq_some_of_exists h
  have h2 := List.findIdx?_of_eq_some h1
  refine ⟨l.findIdx p, ?_⟩
  cases hx : l[l.findIdx p]? with
  | none => rw [hx] at h2; simp at h2
  | some x => rw [hx] at h2; exact ⟨x, h1, rfl, h2⟩

theorem updateTransaction_of_findIdx (id : Int) (u : UpdatedData) (m : TransactionManager)
    (i : Nat) (old : Transaction)
    (hi : m.transactions.findIdx? (fun t => decide (t.id = id)) = some i)
    (hold : m.transactions[i]? = some old) :
    updateTransaction id u m =
      (some (spread old u),
       { transactions := m.transactions.modify (fun t => spread t u) i
         localStorage := some (stringify (m.transactions.modify (fun t => spread t u) i)) }) := by
  simp [updateTransaction, hi, saveToStorage, List.getElem?_modify_eq, hold]

theorem deleteTransaction_transactions (id : Int) (m : TransactionManager) :
    (deleteTransaction id m).2.transactions =
      m.transactions.eraseP (fun t => decide (t.id = id)) := by
  have key : ∀ l : List Transaction,
      (match l.findIdx? (fun t => decide (t.id = id)) with
        | some index => l.eraseIdx index
        | none => l) = l.eraseP (fun t => decide (t.id = id)) := by
    intro l
    induction l with
    | nil => simp
    | cons a l ih =>
      by_cases ha : a.id = id
      · simp [ha]
      · simp only [List.findIdx?_cons, ha, decide_False, Bool.false_eq_true, ↓reduceIte,
          List.findIdx?_succ, zero_add, not_false_eq_true, List.eraseP_cons_of_neg,
          decide_eq_true_eq]
        rw [← ih]
        cases l.findIdx? (fun t => decide (t.id = id)) <;> simp
  rw [← key]
  unfold deleteTransaction
  cases m.transactions.findIdx? (fun t => decide (t.id = id)) <;> simp [saveToStorage]

theorem find?_eraseP_eq_none_iff {α : Type} (p : α → Bool) (l : List α) :
    (l.eraseP p).find? p = none ↔ l.countP p ≤ 1 := by
  induction l with
  | nil => simp
  | cons a l ih =>
    by_cases ha : p a = true
    · simp only [ha, List.eraseP_cons_of_pos, List.find?_eq_none, Bool.not_eq_true,
        List.countP_cons_of_pos]
      rw [Nat.succ_le_succ_iff, Nat.le_zero, List.countP_eq_zero]
      constructor <;> intro h x hx <;> simpa using h x hx
    · have ha' : p a = false := by simpa using ha
      simpa [List.eraseP_cons, List.find?_cons, List.countP_cons, ha'] using ih


/-! ## Lemmas on numbers -/

theorem decimal_add_val (a b : Decimal) : (Decimal.add a b).1 = a.1 + b.1 := rfl

theorem decimal_neg_val (a : Decimal) : (Decimal.neg a).1 = - a.1 := rfl

theorem decimal_ofInt_val (z : Int) : (Decimal.ofInt z).1 = (z : ℚ) := rfl

theorem decimal_ofNat_val (n : Nat) : ((OfNat.ofNat n : Decimal)).1 = (n : ℚ) := by
  show ((n : ℤ) : ℚ) = (n : ℚ)
  simp

theorem decimal_add_add (a b c : Decimal) :
    Decimal.add (Decimal.add a b) c = Decimal.add a (Decimal.add b c) :=
  Subtype.ext (by simp only [decimal_add_val]; ring)

theorem decimal_add_zero (a : Decimal) : Decimal.add a (Decimal.ofInt 0) = a :=
  Subtype.ext (by simp [decimal_add_val, decimal_ofInt_val])

theorem decimal_zero_add (a : Decimal) : Decimal.add (Decimal.ofInt 0) a = a :=
  Subtype.ext (by simp [decimal_add_val, decimal_ofInt_val])

theorem jsNum_add_def (a b : JsNum) : a + b = JsNum.add a b := rfl

theorem jsNum_zero_def : (0 : JsNum) = JsNum.zero := rfl

theorem jsNum_add_add (a b c : JsNum) :
    JsNum.add (JsNum.add a b) c = JsNum.add a (JsNum.add b c) := by
  cases a <;> cases b <;> cases c <;> simp [JsNum.add, decimal_add_add]

theorem jsNum_add_zero (a : JsNum) : JsNum.add a JsNum.zero = a := by
  cases a <;> simp [JsNum.add, JsNum.zero, decimal_add_zero]

theorem jsNum_zero_add (a : JsNum) : JsNum.add JsNum.zero a = a := by
  cases a <;> simp [JsNum.add, JsNum.zero, decimal_zero_add]

theorem foldl_add_amount (l : List Transaction) (z : JsNum) :
    l.foldl (fun sum t => JsNum.add sum t.amount) z =
      JsNum.add z (l.map Transaction.amount).sum := by
  induction l generalizing z with
  | nil => simpa [jsNum_zero_def] using (jsNum_add_zero z).symm
  | cons a l ih =>
    simp only [List.foldl_cons, ih, List.map_cons, List.sum_cons, jsNum_add_def,
      jsNum_add_add]

/-! ### `Array.prototype.sort` with a consistent comparator -/

theorem extendRun_append {α : Type} (cmp : α → α → Option Int) (d : Bool) (prev : α)
    (rest : List α) :
    (extendRun cmp d prev rest).1 ++ (extendRun cmp d prev rest).2 = rest := by
  induction rest generalizing prev with
  | nil => rfl
  | cons c rest ih =>
    rw [extendRun]
    split_ifs <;> simp [ih c]

theorem extendRun_ascending {α : Type} (cmp : α → α → Option Int) (key : α → Int)
    (P : α → Prop) (hc : ∀ a b, P a → P b → sortCompare cmp a b = key b - key a)
    (prev : α) (rest : List α) (hp : P prev) (hr : ∀ x ∈ rest, P x) :
    (∀ x ∈ (extendRun cmp false prev rest).1, key x ≤ key prev) ∧
    (extendRun cmp false prev rest).1.Pairwise (fun a b => key b ≤ key a) := by
  induction rest generalizing prev with
  | nil => simp [extendRun]
  | cons c rest ih =>
    have hcP := hr c (List.mem_cons_self c rest)
    have ih' := ih c hcP (fun x hx => hr x (List.mem_cons_of_mem c hx))
    rw [extendRun]
    simp only [Bool.false_eq_true, ↓reduceIte, decide_eq_true_eq, hc c prev hcP hp]
    split_ifs with h
    · simp
    · simp only [List.mem_cons, forall_eq_or_imp, List.pairwise_cons]
      refine ⟨⟨by omega, ?_⟩, ?_, ih'.2⟩
      · intro x hx
        have := ih'.1 x hx
        omega
      · exact ih'.1

theorem extendRun_descending {α : Type} (cmp : α → α → Option Int) (key : α → Int)
    (P : α → Prop) (hc : ∀ a b, P a → P b → sortCompare cmp a b = key b - key a)
    (prev : α) (rest : List α) (hp : P prev) (hr : ∀ x ∈ rest, P x) :
    (∀ x ∈ (extendRun cmp true prev rest).1, key prev < key x) ∧
    (extendRun cmp true prev rest).1.Pairwise (fun a b => key a < key b) := by
  induction rest generalizing prev with
  | nil => simp [extendRun]
  | cons c rest ih =>
    have hcP := hr c (List.mem_cons_self c rest)
    have ih' := ih c hcP (fun x hx => hr x (List.mem_cons_of_mem c hx))
    rw [extendRun]
    simp only [↓reduceIte, decide_eq_true_eq, hc c prev hcP hp]
    split_ifs with h
    · simp
    · simp only [List.mem_cons, forall_eq_or_imp, List.pairwise_cons]
      refine ⟨⟨by omega, ?_⟩, ?_, ih'.2⟩
      · intro x hx
        have := ih'.1 x hx
        omega
      · exact ih'.1

theorem filter_reverse_of_increasing {α : Type} (key : α → Int) (k : Int) (l : List α)
    (h : l.Pairwise (fun a b => key a < key b)) :
    l.reverse.filter (fun t => decide (key t = k)) = l.filter (fun t => decide (key t = k)) := by
  rw [List.filter_reverse]
  have hs : (l.filter (fun t => decide (key t = k))).Pairwise (fun a b => key a < key b) :=
    h.sublist (List.filter_sublist l)
  have hk : ∀ x ∈ l.filter (fun t => decide (key t = k)), key x = k := by
    intro x hx
    simpa using (List.mem_filter.mp hx).2
  generalize l.filter (fun t => decide (key t = k)) = f at hs hk
  match f, hs, hk with
  | [], _, _ => rfl
  | [a], _, _ => rfl
  | a :: b :: r, hs, hk =>
    have h1 := hk a (by simp)
    have h2 := hk b (by simp)
    have := (List.pairwise_cons.mp hs).1 b (by simp)
    omega

theorem countAndMakeRun_spec {α : Type} (cmp : α → α → Option Int) (key : α → Int)
    (P : α → Prop) (hc : ∀ a b, P a → P b → sortCompare cmp a b = key b - key a)
    (l : List α) (hl : ∀ x ∈ l, P x) :
    ((countAndMakeRun cmp l).1 ++ (countAndMakeRun cmp l).2).Perm l ∧
    (countAndMakeRun cmp l).1.Pairwise (fun a b => key b ≤ key a) ∧
    (∀ k : Int, ((countAndMakeRun cmp l).1 ++ (countAndMakeRun cmp l).2).filter
        (fun t => decide (key t = k)) = l.filter (fun t => decide (key t = k))) := by
  match l, hl with
  | [], _ => simp [countAndMakeRun]
  | [a], _ => simp [countAndMakeRun]
  | a0 :: a1 :: rest, hl =>
    have h0 : P a0 := hl a0 (by simp)
    have h1 : P a1 := hl a1 (by simp)
    have hr : ∀ x ∈ rest, P x := fun x hx => hl x (by simp [hx])
    have happ : ∀ d, a0 :: a1 :: ((extendRun cmp d a1 rest).1 ++ (extendRun cmp d a1 rest).2) =
        a0 :: a1 :: rest := by
      intro d; rw [extendRun_append]
    rw [countAndMakeRun]
    simp only [hc a1 a0 h1 h0]
    split_ifs with h
    · obtain ⟨hd1, hd2⟩ := extendRun_descending cmp key P hc a1 rest h1 hr
      have hinc : (a0 :: a1 :: (extendRun cmp true a1 rest).1).Pairwise
          (fun a b => key a < key b) := by
        simp only [List.pairwise_cons, List.mem_cons, forall_eq_or_imp]
        refine ⟨⟨by omega, ?_⟩, hd1, hd2⟩
        intro x hx
        have := hd1 x hx
        omega
      refine ⟨?_, ?_, ?_⟩
      · rw [← happ true]
        exact List.Perm.append_right _ (List.reverse_perm _) |>.trans (by simp)
      · rw [List.pairwise_reverse]
        exact hinc.imp (fun h => le_of_lt h)
      · intro k
        rw [List.filter_append, filter_reverse_of_increasing key k _ hinc, ← List.filter_append]
        simp only [List.cons_append, happ true]
    · obtain ⟨hd1, hd2⟩ := extendRun_ascending cmp key P hc a1 rest h1 hr
      refine ⟨?_, ?_, ?_⟩
      · simp only [List.cons_append, happ false]
        exact List.Perm.refl _
      · simp only [List.pairwise_cons, List.mem_cons, forall_eq_or_imp]
        refine ⟨⟨by omega, ?_⟩, hd1, hd2⟩
        intro x hx
        have := hd1 x hx
        omega
      · intro k
        simp only [List.cons_append, happ false]

theorem insertionPoint_spec {α : Type} (cmp : α → α → Option Int) (key : α → Int)
    (P : α → Prop) (hc : ∀ a b, P a → P b → sortCompare cmp a b = key b - key a)
    (pivot : α) (s : List α) (hp : P pivot) (hs : ∀ x ∈ s, P x)
    (hsorted : s.Pairwise (fun a b => key b ≤ key a)) (fuel : Nat) :
    ∀ left right, left ≤ right → right ≤ s.length → right - left < fuel →
      (∀ j x, j < left → s[j]? = some x → key pivot ≤ key x) →
      (∀ j x, right ≤ j → s[j]? = some x → key x < key pivot) →
      insertionPoint cmp pivot s fuel left right ≤ s.length ∧
      (∀ j x, j < insertionPoint cmp pivot s fuel left right → s[j]? = some x →
        key pivot ≤ key x) ∧
      (∀ j x, insertionPoint cmp pivot s fuel left right ≤ j → s[j]? = some x →
        key x < key pivot) := by
  induction fuel with
  | zero => intro left right _ _ h; omega
  | succ fuel ih =>
    intro left right hlr hrl hf hlo hhi
    rw [insertionPoint]
    by_cases hlt : left < right
    · simp only [hlt, ↓reduceIte]
      have hmid : left + (right - left) / 2 < s.length := by omega
      have hget : s[left + (right - left) / 2]? = some (s[left + (right - left) / 2]) :=
        List.getElem?_eq_getElem hmid
      rw [hget]
      simp only
      have hx : P s[left + (right - left) / 2] := hs _ (List.getElem_mem _)
      rw [hc pivot _ hp hx]
      have hpw := List.pairwise_iff_getElem.mp hsorted
      split_ifs with hcmp
      · apply ih left (left + (right - left) / 2) (by omega) (by omega) (by omega) hlo
        intro j x hj hjx
        obtain ⟨hjl, rfl⟩ := List.getElem?_eq_some.mp hjx
        rcases Nat.eq_or_lt_of_le hj with heq | hlt'
        · subst heq; omega
        · have := hpw _ j hmid hjl hlt'
          omega
      · apply ih (left + (right - left) / 2 + 1) right (by omega) hrl (by omega) _ hhi
        intro j x hj hjx
        obtain ⟨hjl, rfl⟩ := List.getElem?_eq_some.mp hjx
        rcases Nat.eq_or_lt_of_le (Nat.le_of_lt_succ hj) with heq | hlt'
        · subst heq; omega
        · have := hpw j _ hjl hmid hlt'
          omega
    · simp only [hlt, ↓reduceIte]
      have : left = right := by omega
      subst this
      exact ⟨hrl, hlo, hhi⟩

theorem binaryInsert_spec {α : Type} (cmp : α → α → Option Int) (key : α → Int)
    (P : α → Prop) (hc : ∀ a b, P a → P b → sortCompare cmp a b = key b - key a)
    (pivot : α) (s : List α) (hp : P pivot) (hs : ∀ x ∈ s, P x)
    (hsorted : s.Pairwise (fun a b => key b ≤ key a)) :
    (binaryInsert cmp s pivot).Perm (s ++ [pivot]) ∧
    (binaryInsert cmp s pivot).Pairwise (fun a b => key b ≤ key a) ∧
    (∀ k : Int, (binaryInsert cmp s pivot).filter (fun t => decide (key t = k)) =
      (s ++ [pivot]).filter (fun t => decide (key t = k))) := by
  obtain ⟨hi, hlo, hhi⟩ := insertionPoint_spec cmp key P hc pivot s hp hs hsorted
    (s.length + 1) 0 s.length (Nat.zero_le _) (le_refl _) (by omega)
    (fun j x h _ => absurd h (Nat.not_lt_zero j))
    (fun j x h hx => by
      have := (List.getElem?_eq_some.mp hx).1
      omega)
  rw [binaryInsert]
  generalize insertionPoint cmp pivot s (s.length + 1) 0 s.length = i at hi hlo hhi
  have htd : s.take i ++ s.drop i = s := List.take_append_drop i s
  have hlo' : ∀ x ∈ s.take i, key pivot ≤ key x := by
    intro x hx
    obtain ⟨j, hj⟩ := List.mem_iff_getElem?.mp hx
    have hjl : j < i := by
      have := (List.getElem?_eq_some.mp hj).1
      simp only [List.length_take] at this
      omega
    rw [List.getElem?_take_of_lt hjl] at hj
    exact hlo j x hjl hj
  have hhi' : ∀ x ∈ s.drop i, key x < key pivot := by
    intro x hx
    obtain ⟨j, hj⟩ := List.mem_iff_getElem?.mp hx
    rw [List.getElem?_drop] at hj
    exact hhi (i + j) x (by omega) hj
  have hsorted' : (s.take i ++ s.drop i).Pairwise (fun a b => key b ≤ key a) := by
    rw [htd]; exact hsorted
  rw [List.pairwise_append] at hsorted'
  refine ⟨?_, ?_, ?_⟩
  · have h1 : (s.take i ++ pivot :: s.drop i).Perm (pivot :: (s.take i ++ s.drop i)) :=
      List.perm_middle
    rw [htd] at h1
    exact h1.trans (List.perm_append_singleton pivot s).symm
  · rw [List.pairwise_append, List.pairwise_cons]
    refine ⟨hsorted'.1, ⟨fun x hx => le_of_lt (hhi' x hx), hsorted'.2.1⟩, ?_⟩
    intro a ha b hb
    rcases List.mem_cons.mp hb with rfl | hb
    · exact hlo' a ha
    · exact hsorted'.2.2 a ha b hb
  · intro k
    have hdrop : key pivot = k → (s.drop i).filter (fun t => decide (key t = k)) = [] := by
      intro hk
      rw [List.filter_eq_nil_iff]
      intro x hx
      have := hhi' x hx
      simp only [decide_eq_true_eq]
      omega
    conv_rhs => rw [← htd]
    simp only [List.filter_append, List.filter_cons, List.filter_nil]
    by_cases hk : key pivot = k
    · simp [hk, hdrop hk]
    · simp [hk]

theorem foldl_binaryInsert_spec {α : Type} (cmp : α → α → Option Int) (key : α → Int)
    (P : α → Prop) (hc : ∀ a b, P a → P b → sortCompare cmp a b = key b - key a)
    (rest : List α) :
    ∀ acc : List α, (∀ x ∈ acc, P x) → (∀ x ∈ rest, P x) →
      acc.Pairwise (fun a b => key b ≤ key a) →
      (rest.foldl (binaryInsert cmp) acc).Perm (acc ++ rest) ∧
      (rest.foldl (binaryInsert cmp) acc).Pairwise (fun a b => key b ≤ key a) ∧
      (∀ k : Int, (rest.foldl (binaryInsert cmp) acc).filter (fun t => decide (key t = k)) =
        (acc ++ rest).filter (fun t => decide (key t = k))) := by
  induction rest with
  | nil => intro acc _ _ h; simp [h]
  | cons p rest ih =>
    intro acc hacc hrest hsorted
    have hp : P p := hrest p (List.mem_cons_self p rest)
    obtain ⟨b1, b2, b3⟩ := binaryInsert_spec cmp key P hc p acc hp hacc hsorted
    have hacc' : ∀ x ∈ binaryInsert cmp acc p, P x := by
      intro x hx
      rcases List.mem_append.mp (b1.mem_iff.mp hx) with h | h
      · exact hacc x h
      · rw [List.mem_singleton.mp h]; exact hp
    obtain ⟨i1, i2, i3⟩ := ih (binaryInsert cmp acc p) hacc'
      (fun x hx => hrest x (List.mem_cons_of_mem p hx)) b2
    rw [List.foldl_cons]
    refine ⟨?_, i2, ?_⟩
    · refine i1.trans ?_
      have := List.Perm.append_right rest b1
      simpa using this
    · intro k
      rw [i3 k, List.filter_append, b3 k, ← List.filter_append, List.append_assoc,
        List.singleton_append]

theorem arraySortV8_spec {α : Type} (cmp : α → α → Option Int) (key : α → Int)
    (l : List α) (hcmp : ∀ a ∈ l, ∀ b ∈ l, cmp a b = some (key b - key a)) :
    (arraySortV8 cmp l).Perm l ∧
    (arraySortV8 cmp l).Pairwise (fun a b => key b ≤ key a) ∧
    (∀ k : Int, (arraySortV8 cmp l).filter (fun t => decide (key t = k)) =
      l.filter (fun t => decide (key t = k))) := by
  have hc : ∀ a b, a ∈ l → b ∈ l → sortCompare cmp a b = key b - key a := by
    intro a b ha hb
    simp [sortCompare, hcmp a ha b hb]
  obtain ⟨r1, r2, r3⟩ := countAndMakeRun_spec cmp key (fun x => x ∈ l) hc l (fun x hx => hx)
  have hmem : ∀ x, x ∈ (countAndMakeRun cmp l).1 ++ (countAndMakeRun cmp l).2 → x ∈ l :=
    fun x hx => r1.mem_iff.mp hx
  obtain ⟨f1, f2, f3⟩ := foldl_binaryInsert_spec cmp key (fun x => x ∈ l) hc
    (countAndMakeRun cmp l).2 (countAndMakeRun cmp l).1
    (fun x hx => hmem x (List.mem_append_left _ hx))
    (fun x hx => hmem x (List.mem_append_right _ hx)) r2
  rw [arraySortV8]
  exact ⟨f1.trans r1, f2, fun k => (f3 k).trans (r3 k)⟩

/-! ### `String.prototype.includes` and `String.prototype.toLowerCase` -/

theorem includesChars_iff (s t : List Char) : includesChars s t = true ↔ t <:+: s := by
  induction s with
  | nil => simp [includesChars, List.infix_nil]
  | cons c cs ih =>
    rw [includesChars, Bool.or_eq_true, ih, List.infix_cons_iff, List.isPrefixOf_iff_prefix]

theorem infix_map_iff {α β : Type} (f : α → β) (l : List α) (t : List β) :
    t <:+: l.map f ↔ ∃ u, u <:+: l ∧ u.map f = t := by
  constructor
  · rintro ⟨a, b, h⟩
    obtain ⟨l1, l2, rfl, h1, rfl⟩ := List.map_eq_append_iff.mp h.symm
    obtain ⟨l3, l4, rfl, rfl, rfl⟩ := List.map_eq_append_iff.mp h1
    exact ⟨l4, ⟨l3, l2, rfl⟩, rfl⟩
  · rintro ⟨u, hu, rfl⟩
    exact hu.map f

theorem lowerChars_simply (T : CaseTables) (after : List Char) :
    ∀ before : List Char,
      after.all (fun c => c.toNat != 0x3A3 && c.toNat != 0x130) = true →
      lowerChars T before after = after.map (lowerChar T) := by
  induction after with
  | nil => intro before _; rfl
  | cons c cs ih =>
    intro before h
    simp only [List.all_cons, Bool.and_eq_true, bne_iff_ne, ne_eq] at h
    obtain ⟨⟨h1, h2⟩, h3⟩ := h
    rw [lowerChars, ih (c :: before) h3]
    simp [h1, h2]

theorem toLowerCase_simply (T : CaseTables) (s : String) (h : simplyCased s = true) :
    (toLowerCase T s).toList = s.toList.map (lowerChar T) :=
  lowerChars_simply T s.toList [] h

theorem toLowerCase_empty (T : CaseTables) : toLowerCase T "" = "" := rfl

theorem simplyCased_of_isBasicLatin (s : String) (h : isBasicLatin s = true) :
    simplyCased s = true := by
  rw [simplyCased, List.all_eq_true]
  rw [isBasicLatin, List.all_eq_true] at h
  intro c hc
  have := h c hc
  simp only [decide_eq_true_eq] at this
  simp only [Bool.and_eq_true, bne_iff_ne, ne_eq]
  omega

theorem map_lowerChar_of_basicLatin (T : CaseTables) (l : List Char)
    (h : ∀ c ∈ l, c.toNat < 128) : l.map (lowerChar T) = l.map Char.toLower := by
  apply List.map_congr_left
  intro c hc
  simp [lowerChar, h c hc]

theorem matches_iff (T : CaseTables) (searchTerm field : String)
    (hs : simplyCased searchTerm = true) (hf : simplyCased field = true) :
    includes (toLowerCase T field) (toLowerCase T searchTerm) = true ↔
      ∃ u : List Char, u <:+: field.toList ∧
        u.map (lowerChar T) = searchTerm.toList.map (lowerChar T) := by
  rw [includes, includesChars_iff, toLowerCase_simply T _ hs, toLowerCase_simply T _ hf,
    infix_map_iff]

/-! ### Decimal digits -/

theorem digitChar_isDigit (d : Nat) (h : d < 10) : (digitChar d).isDigit = true := by
  interval_cases d <;> decide

theorem digitVal_digitChar (d : Nat) (h : d < 10) : digitVal (digitChar d) = d := by
  interval_cases d <;> decide

theorem digitChar_eq_zero_iff (d : Nat) (h : d < 10) : digitChar d = '0' ↔ d = 0 := by
  interval_cases d <;> decide

theorem digitsValue_append (xs ys : List Char) :
    digitsValue (xs ++ ys) = digitsValue xs * 10 ^ ys.length + digitsValue ys := by
  unfold digitsValue
  induction ys using List.reverseRecOn with
  | nil => simp
  | append_singleton ys y ih =>
    rw [← List.append_assoc, List.foldl_append, ih, List.foldl_append]
    simp only [List.foldl_cons, List.foldl_nil, List.length_append, List.length_singleton]
    ring

theorem digitsValue_singleton (c : Char) : digitsValue [c] = digitVal c := by
  simp [digitsValue]

theorem natDigitsAux_spec (fuel n : Nat) (h : n < fuel) :
    digitsValue (natDigitsAux fuel n) = n ∧
    (∀ c ∈ natDigitsAux fuel n, c.isDigit = true) ∧
    (∃ c r, natDigitsAux fuel n = c :: r ∧ (c = '0' ↔ n = 0)) ∧
    (∀ k, n < 10 ^ (k + 1) → (natDigitsAux fuel n).length ≤ k + 1) := by
  induction fuel generalizing n with
  | zero => omega
  | succ fuel ih =>
    rw [natDigitsAux]
    by_cases hn : n < 10
    · simp only [hn, ↓reduceIte, digitsValue_singleton, digitVal_digitChar n hn,
        List.mem_singleton, forall_eq, digitChar_isDigit n hn, List.cons.injEq, true_and]
      refine ⟨⟨digitChar n, [], ⟨rfl, rfl⟩, digitChar_eq_zero_iff n hn⟩, ?_⟩
      intro k _
      simp
    · simp only [hn, ↓reduceIte]
      have hlt : n / 10 < fuel := by omega
      obtain ⟨h1, h2, ⟨c, r, h3, h4⟩, h5⟩ := ih (n / 10) hlt
      refine ⟨?_, ?_, ?_, ?_⟩
      · rw [digitsValue_append, h1, digitsValue_singleton,
          digitVal_digitChar _ (Nat.mod_lt _ (by norm_num))]
        simp only [List.length_singleton, pow_one]
        omega
      · intro c hc
        rcases List.mem_append.mp hc with hc | hc
        · exact h2 c hc
        · rw [List.mem_singleton.mp hc]
          exact digitChar_isDigit _ (Nat.mod_lt _ (by norm_num))
      · refine ⟨c, r ++ [digitChar (n % 10)], by rw [h3]; rfl, ?_⟩
        rw [h4]
        omega
      · intro k hk
        cases k with
        | zero => omega
        | succ k =>
          have := h5 k (by rw [pow_succ] at hk; omega)
          simp only [List.length_append, List.length_singleton]
          omega

theorem digitsValue_natDigits (n : Nat) : digitsValue (natDigits n) = n :=
  (natDigitsAux_spec (n + 1) n (by omega)).1

theorem natDigits_isDigit (n : Nat) : ∀ c ∈ natDigits n, c.isDigit = true :=
  (natDigitsAux_spec (n + 1) n (by omega)).2.1

theorem natDigits_head (n : Nat) : ∃ c r, natDigits n = c :: r ∧ (c = '0' ↔ n = 0) :=
  (natDigitsAux_spec (n + 1) n (by omega)).2.2.1

theorem natDigits_length_le (n k : Nat) (h : n < 10 ^ (k + 1)) : (natDigits n).length ≤ k + 1 :=
  (natDigitsAux_spec (n + 1) n (by omega)).2.2.2 k h

theorem natDigits_zero : natDigits 0 = ['0'] := by decide

theorem takeWhile_digits_append (ds tail : List Char) (hds : ∀ c ∈ ds, c.isDigit = true)
    (htail : ∀ c r, tail = c :: r → c.isDigit = false) :
    (ds ++ tail).takeWhile Char.isDigit = ds ∧ (ds ++ tail).dropWhile Char.isDigit = tail := by
  induction ds with
  | nil =>
    cases tail with
    | nil => simp
    | cons c r => simp [List.takeWhile, List.dropWhile, htail c r rfl]
  | cons d ds ih =>
    have hd := hds d (List.mem_cons_self d ds)
    have := ih (fun c hc => hds c (List.mem_cons_of_mem d hc))
    simp [List.takeWhile, List.dropWhile, hd, this.1, this.2]

theorem digitsValue_replicate_zero (k : Nat) : digitsValue (List.replicate k '0') = 0 := by
  induction k with
  | zero => rfl
  | succ k ih =>
    rw [List.replicate_succ, ← List.singleton_append, digitsValue_append, ih]
    simp [digitsValue_singleton, digitVal]

theorem padDigits_spec (k n : Nat) (hk : 0 < k) (h : n < 10 ^ k) :
    digitsValue (padDigits k (natDigits n)) = n ∧
    (padDigits k (natDigits n)).length = k ∧
    (∀ c ∈ padDigits k (natDigits n), c.isDigit = true) := by
  obtain ⟨k, rfl⟩ : ∃ j, k = j + 1 := ⟨k - 1, by omega⟩
  have hlen := natDigits_length_le n k h
  refine ⟨?_, ?_, ?_⟩
  · rw [padDigits, digitsValue_append, digitsValue_replicate_zero, digitsValue_natDigits]
    simp
  · rw [padDigits, List.length_append, List.length_replicate]
    omega
  · intro c hc
    rw [padDigits] at hc
    rcases List.mem_append.mp hc with hc | hc
    · rw [(List.mem_replicate.mp hc).2]; decide
    · exact natDigits_isDigit n c hc

/-! ### The decimal text of a number -/

theorem isDecimal_den_dvd (q : ℚ) (h : IsDecimal q) : ∃ k : ℕ, q.den ∣ 10 ^ k := by
  obtain ⟨k, z, hz⟩ := h
  refine ⟨k, ?_⟩
  have hden : (q.den : ℚ) ≠ 0 := by exact_mod_cast q.den_nz
  have h1 : (q.num : ℚ) * 10 ^ k = z * q.den := by
    have hq : (q.num : ℚ) = q * q.den := (Rat.mul_den_eq_num q).symm
    rw [← hz, hq]
    ring
  have h2 : q.num * 10 ^ k = z * q.den := by exact_mod_cast h1
  have h3 : q.den ∣ (q.num * 10 ^ k).natAbs := by
    rw [h2, Int.natAbs_mul, Int.natAbs_ofNat]
    exact Dvd.intro_left _ rfl
  rw [Int.natAbs_mul, Int.natAbs_pow] at h3
  have h4 : q.den ∣ q.num.natAbs * 10 ^ k := by simpa using h3
  exact (Nat.Coprime.dvd_mul_left q.reduced.symm).mp h4

theorem den_mul_ten_lt (q : ℚ) (h : IsDecimal q) (h1 : q.den ≠ 1) : (q * 10).den < q.den := by
  obtain ⟨k, hk⟩ := isDecimal_den_dvd q h
  rw [Rat.mul_den]
  have e1 : (10 : ℚ).den = 1 := rfl
  have e2 : (10 : ℚ).num = 10 := rfl
  rw [e1, e2, Nat.mul_one]
  have hg : 1 < Nat.gcd (q.num * 10).natAbs q.den := by
    by_contra hcon
    have hpos := Nat.gcd_pos_of_pos_right (q.num * 10).natAbs q.den_pos
    have hg1 : Nat.gcd (q.num * 10).natAbs q.den = 1 := by omega
    have hdvd : 10 ∣ (q.num * 10).natAbs := by
      rw [Int.natAbs_mul]
      exact Dvd.intro_left _ rfl
    have hc : Nat.Coprime 10 q.den := Nat.Coprime.coprime_dvd_left hdvd hg1
    have hc2 : Nat.Coprime (10 ^ k) q.den := Nat.Coprime.pow_left k hc
    exact h1 (Nat.Coprime.eq_one_of_dvd hc2.symm hk)
  exact Nat.div_lt_self q.den_pos hg

theorem isDecimal_mul_ten (q : ℚ) (h : IsDecimal q) : IsDecimal (q * 10) := by
  obtain ⟨k, z, hz⟩ := h
  exact ⟨k, z * 10, by push_cast; rw [← hz]; ring⟩

theorem decimalScaleAux_spec (fuel : Nat) (q : ℚ) (h : IsDecimal q) (hf : q.den ≤ fuel) :
    (q * (10 : ℚ) ^ decimalScaleAux fuel q).den = 1 := by
  induction fuel generalizing q with
  | zero => have := q.den_pos; omega
  | succ fuel ih =>
    rw [decimalScaleAux]
    by_cases h1 : q.den = 1
    · simp [h1]
    · simp only [h1, ↓reduceIte]
      have hlt := den_mul_ten_lt q h h1
      have := ih (q * 10) (isDecimal_mul_ten q h) (by omega)
      rw [pow_succ']
      rw [mul_assoc] at this
      exact this

theorem decimalScale_spec (d : Decimal) : (d.1 * (10 : ℚ) ^ decimalScale d.1).den = 1 :=
  decimalScaleAux_spec d.1.den d.1 d.2 (le_refl _)

theorem parseIntegerPart_natDigits (n : Nat) (tail : List Char)
    (htail : ∀ c r, tail = c :: r → c.isDigit = false) :
    parseIntegerPart (natDigits n ++ tail) = Except.ok (natDigits n, tail) := by
  obtain ⟨c, r, hcr, hc0⟩ := natDigits_head n
  by_cases hn : n = 0
  · subst hn
    rw [natDigits_zero]
    rfl
  · have hc : c ≠ '0' := fun h => hn (hc0.mp h)
    have hdig := natDigits_isDigit n
    rw [hcr] at hdig ⊢
    have hcd : c.isDigit = true := hdig c (List.mem_cons_self c r)
    have htw := takeWhile_digits_append r tail
      (fun x hx => hdig x (List.mem_cons_of_mem c hx)) htail
    simp only [List.cons_append, parseIntegerPart, hc, ↓reduceIte, hcd, htw.1, htw.2]

theorem parseFraction_none (tail : List Char) (h : ∀ c r, tail = c :: r → c ≠ '.') :
    parseFraction tail = Except.ok ([], tail) := by
  cases tail with
  | nil => rfl
  | cons c r => simp [parseFraction, h c r rfl]

theorem parseFraction_digits (ds tail : List Char) (hne : ds ≠ [])
    (hds : ∀ c ∈ ds, c.isDigit = true) (htail : ∀ c r, tail = c :: r → c.isDigit = false) :
    parseFraction ('.' :: (ds ++ tail)) = Except.ok (ds, tail) := by
  have htw := takeWhile_digits_append ds tail hds htail
  simp [parseFraction, htw.1, htw.2, hne]

theorem parseExponent_none (tail : List Char)
    (h : ∀ c r, tail = c :: r → c ≠ 'e' ∧ c ≠ 'E') :
    parseExponent tail = Except.ok (0, tail) := by
  cases tail with
  | nil => rfl
  | cons c r =>
    have := h c r rfl
    simp [parseExponent, this.1, this.2]

theorem natAbs_scaled (d : Decimal) :
    |d.1| = ((d.1 * (10 : ℚ) ^ decimalScale d.1).num.natAbs : ℚ) *
      (10 : ℚ) ^ (-(decimalScale d.1 : ℤ)) := by
  have hden := decimalScale_spec d
  have hnum := Rat.coe_int_num_of_den_eq_one hden
  have hpos : (0 : ℚ) < (10 : ℚ) ^ decimalScale d.1 := by positivity
  have habs : |d.1 * (10 : ℚ) ^ decimalScale d.1| =
      ((d.1 * (10 : ℚ) ^ decimalScale d.1).num.natAbs : ℚ) := by
    rw [Nat.cast_natAbs, Int.cast_abs, hnum]
  rw [← habs, abs_mul, abs_of_pos hpos, zpow_neg, zpow_natCast, mul_assoc,
    mul_inv_cancel₀ (ne_of_gt hpos), mul_one]

theorem parseUnsigned_numberToString (d : Decimal) (tail : List Char) (htail : NumberEnd tail) :
    ∃ (body : List Char) (u : Decimal),
      numberToString d = (if d.1 < 0 then ['-'] else []) ++ body ∧
      (∃ c r, body = c :: r ∧ c.isDigit = true) ∧
      u.1 = |d.1| ∧
      parseUnsigned (body ++ tail) = Except.ok (u, tail) := by
  have habs := natAbs_scaled d
  generalize hk : decimalScale d.1 = k at habs
  generalize hn : (d.1 * (10 : ℚ) ^ k).num.natAbs = n at habs
  have htd : ∀ c r, tail = c :: r → c.isDigit = false := fun c r h => (htail c r h).1
  have htp : ∀ c r, tail = c :: r → c ≠ '.' := fun c r h => (htail c r h).2.1
  have hte : ∀ c r, tail = c :: r → c ≠ 'e' ∧ c ≠ 'E' := fun c r h => (htail c r h).2.2
  refine ⟨if k = 0 then natDigits n
       else natDigits (n / 10 ^ k) ++ '.' :: padDigits k (natDigits (n % 10 ^ k)),
    Decimal.scaled n (-(k : ℤ)), ?_, ?_, by rw [habs]; rfl, ?_⟩
  · simp only [numberToString, hk, hn]
    by_cases hneg : d.1 < 0 <;> by_cases hk0 : k = 0 <;> simp [hneg, hk0]
  · by_cases hk0 : k = 0
    · obtain ⟨c, r, hcr, -⟩ := natDigits_head n
      exact ⟨c, r, by simp [hk0, hcr], natDigits_isDigit n c (by rw [hcr]; exact List.mem_cons_self c r)⟩
    · obtain ⟨c, r, hcr, -⟩ := natDigits_head (n / 10 ^ k)
      exact ⟨c, _, by simp only [hk0, ↓reduceIte, hcr, List.cons_append]; rfl,
        natDigits_isDigit _ c (by rw [hcr]; exact List.mem_cons_self c r)⟩
  · by_cases hk0 : k = 0
    · simp only [hk0, ↓reduceIte, parseUnsigned, parseIntegerPart_natDigits n tail htd,
        parseFraction_none tail htp, parseExponent_none tail hte]
      simp [digitsValue_natDigits]
    · have hkpos : 0 < k := Nat.pos_of_ne_zero hk0
      obtain ⟨p1, p2, p3⟩ := padDigits_spec k (n % 10 ^ k) hkpos
        (Nat.mod_lt _ (by positivity))
      have hpne : padDigits k (natDigits (n % 10 ^ k)) ≠ [] := by
        intro h; rw [h] at p2; simp at p2; omega
      have hfirst : ∀ c r, ('.' :: (padDigits k (natDigits (n % 10 ^ k)) ++ tail)) = c :: r →
          c.isDigit = false := by
        intro c r h
        simp only [List.cons.injEq] at h
        rw [← h.1]; decide
      simp only [hk0, ↓reduceIte, List.append_assoc, List.cons_append, parseUnsigned,
        parseIntegerPart_natDigits _ _ hfirst,
        parseFraction_digits _ tail hpne p3 htd, parseExponent_none tail hte]
      rw [digitsValue_append, digitsValue_natDigits, p1, p2, Nat.div_add_mod']
      simp

theorem parseNumber_numberToString (d : Decimal) (tail : List Char) (htail : NumberEnd tail) :
    parseNumber (numberToString d ++ tail) = Except.ok (d, tail) := by
  obtain ⟨body, u, hsplit, ⟨c, r, hcr, hc⟩, hu, hparse⟩ :=
    parseUnsigned_numberToString d tail htail
  rw [hsplit]
  by_cases hneg : d.1 < 0
  · have : Decimal.neg u = d := by
      apply Subtype.ext
      show - u.1 = d.1
      rw [hu, abs_of_neg hneg, neg_neg]
    simp [hneg, parseNumber, hparse, this]
  · have hud : u = d := by
      apply Subtype.ext
      rw [hu, abs_of_nonneg (not_lt.mp hneg)]
    have hne : c ≠ '-' := by
      intro h; rw [h] at hc; exact absurd hc (by decide)
    rw [hcr] at hparse ⊢
    simp only [hneg, ↓reduceIte, List.nil_append, List.cons_append] at hparse ⊢
    simp [parseNumber, hne, hparse, hud]

theorem hex4_control (n : Nat) (h : n < 0x20) :
    hex4 '0' '0' (hexChar (n / 16)) (hexChar (n % 16)) = some n := by
  interval_cases n <;> decide

theorem escapeChar_length_pos (c : Char) : 0 < (escapeChar c).length := by
  unfold escapeChar
  repeat' (split <;> try simp)

theorem parseStringChars_quoteChars (s tail acc : List Char) (fuel : Nat)
    (hf : (quoteChars s).length ≤ fuel) :
    parseStringChars fuel (quoteChars s ++ tail) acc = Except.ok (acc.reverse ++ s, tail) := by
  induction s generalizing acc fuel with
  | nil =>
    obtain ⟨f, rfl⟩ : ∃ f, fuel = f + 1 := ⟨fuel - 1, by simp [quoteChars] at hf; omega⟩
    simp [quoteChars, parseStringChars]
  | cons c cs ih =>
    have hpos := escapeChar_length_pos c
    rw [quoteChars, List.length_append] at hf
    obtain ⟨f, rfl⟩ : ∃ f, fuel = f + 1 := ⟨fuel - 1, by omega⟩
    have hf' : (quoteChars cs).length ≤ f := by omega
    have IH := fun acc' => ih acc' f hf'
    rw [quoteChars, escapeChar]
    by_cases h1 : c = '"'
    · subst h1
      simp [parseStringChars, simpleEscape, IH]
    · by_cases h2 : c = '\\'
      · subst h2
        simp [parseStringChars, simpleEscape, IH]
      · have hc : Char.ofNat c.toNat = c := Char.ofNat_toNat c
        by_cases h3 : c.toNat = 0x08
        · have e : Char.ofNat 0x08 = c := by rw [← h3]; exact hc
          simp [h1, h2, h3, parseStringChars, simpleEscape, IH]
          exact e
        · by_cases h4 : c.toNat = 0x09
          · have e : Char.ofNat 0x09 = c := by rw [← h4]; exact hc
            simp [h1, h2, h4, parseStringChars, simpleEscape, IH]
            exact e
          · by_cases h5 : c.toNat = 0x0A
            · have e : Char.ofNat 0x0A = c := by rw [← h5]; exact hc
              simp [h1, h2, h5, parseStringChars, simpleEscape, IH]
              exact e
            · by_cases h6 : c.toNat = 0x0C
              · have e : Char.ofNat 0x0C = c := by rw [← h6]; exact hc
                simp [h1, h2, h6, parseStringChars, simpleEscape, IH]
                exact e
              · by_cases h7 : c.toNat = 0x0D
                · have e : Char.ofNat 0x0D = c := by rw [← h7]; exact hc
                  simp [h1, h2, h7, parseStringChars, simpleEscape, IH]
                  exact e
                · by_cases h8 : c.toNat < 0x20
                  · have hx := hex4_control c.toNat h8
                    have hlo : ¬ (0xD800 ≤ c.toNat ∧ c.toNat ≤ 0xDBFF) := by omega
                    have hhi : ¬ (0xDC00 ≤ c.toNat ∧ c.toNat ≤ 0xDFFF) := by omega
                    simp only [h1, h2, h3, h4, h5, h6, h7, h8, ↓reduceIte, List.cons_append,
                      List.nil_append, parseStringChars, hx, hlo, hhi, hc, IH]
                    simp
                  · simp [h1, h2, h3, h4, h5, h6, h7, h8, parseStringChars, IH]

/-! ### Values of the serialized collection -/

theorem skipWs_cons (c : Char) (r : List Char) (h : isJsonWhiteSpace c = false) :
    skipWs (c :: r) = c :: r := by
  simp [skipWs, List.dropWhile, h]

theorem parseString_quoteChars (s : String) (tail : List Char) :
    parseString (quoteChars s.toList ++ tail) = Except.ok (s, tail) := by
  have := parseStringChars_quoteChars s.toList tail [] ((quoteChars s.toList ++ tail).length + 1)
    (by rw [List.length_append]; omega)
  simp only [parseString, this, List.reverse_nil, List.nil_append]
  rfl

theorem parseValue_string (fuel : Nat) (s : String) (tail : List Char) :
    parseValue (fuel + 1) (quoteJSONString s ++ tail) = Except.ok (JsVal.str s, tail) := by
  rw [quoteJSONString, List.cons_append, parseValue, skipWs_cons _ _ (by decide)]
  simp only [parseString_quoteChars]
  rfl

theorem isDigit_not_special (c : Char) (h : c.isDigit = true) :
    isJsonWhiteSpace c = false ∧ c ≠ '\x7b' ∧ c ≠ '[' ∧ c ≠ '"' ∧ c ≠ 't' ∧ c ≠ 'f' ∧
      c ≠ 'n' := by
  simp only [Char.isDigit, Bool.and_eq_true, decide_eq_true_eq] at h
  have hv : 48 ≤ c.toNat ∧ c.toNat ≤ 57 := by
    obtain ⟨h1, h2⟩ := h
    exact ⟨h1, h2⟩
  refine ⟨?_, ?_, ?_, ?_, ?_, ?_, ?_⟩
  · simp only [isJsonWhiteSpace, Bool.or_eq_false_iff, decide_eq_false_iff_not]
    omega
  all_goals
    intro hc
    rw [hc] at hv
    revert hv
    decide

theorem numberToString_head (d : Decimal) :
    ∃ c r, numberToString d = c :: r ∧ (c = '-' ∨ c.isDigit = true) := by
  obtain ⟨body, u, hsplit, ⟨c, r, hcr, hc⟩, -, -⟩ :=
    parseUnsigned_numberToString d [] (by intro c r h; cases h)
  by_cases hneg : d.1 < 0
  · exact ⟨'-', body, by rw [hsplit]; simp [hneg], Or.inl rfl⟩
  · exact ⟨c, r, by rw [hsplit, hcr]; simp [hneg], Or.inr hc⟩

theorem parseValue_number (fuel : Nat) (d : Decimal) (tail : List Char) (htail : NumberEnd tail) :
    parseValue (fuel + 1) (numberToString d ++ tail) =
      Except.ok (JsVal.num (JsNum.fin d), tail) := by
  have hp := parseNumber_numberToString d tail htail
  obtain ⟨c, r, hcr, hc⟩ := numberToString_head d
  rw [hcr] at hp ⊢
  rw [List.cons_append] at hp ⊢
  have hs : isJsonWhiteSpace c = false ∧ c ≠ '\x7b' ∧ c ≠ '[' ∧ c ≠ '"' ∧ c ≠ 't' ∧ c ≠ 'f' ∧
      c ≠ 'n' := by
    rcases hc with hc | hc
    · subst hc; decide
    · exact isDigit_not_special c hc
  obtain ⟨h0, h1, h2, h3, h4, h5, h6⟩ := hs
  rw [parseValue, skipWs_cons _ _ h0]
  simp only [h1, h2, h3, h4, h5, h6, ↓reduceIte, hp]

theorem parseValue_null (fuel : Nat) (tail : List Char) :
    parseValue (fuel + 1) ('n' :: 'u' :: 'l' :: 'l' :: tail) = Except.ok (JsVal.null, tail) := by
  rw [parseValue, skipWs_cons _ _ (by decide)]
  simp [List.isPrefixOf]

theorem parseValue_serializeNumber (fuel : Nat) (n : JsNum) (tail : List Char)
    (htail : NumberEnd tail) :
    parseValue (fuel + 1) (serializeNumber n ++ tail) = Except.ok (n.reloaded, tail) := by
  cases n with
  | fin q => exact parseValue_number fuel q tail htail
  | nan => exact parseValue_null fuel tail
  | posInf => exact parseValue_null fuel tail
  | negInf => exact parseValue_null fuel tail

theorem parseMembers_member (fuel : Nat) (key : String) (valueText : List Char) (v : JsVal)
    (sep : Char) (rest : List Char) (acc : List (String × JsVal))
    (hsep : isJsonWhiteSpace sep = false)
    (hv : parseValue fuel (valueText ++ sep :: rest) = Except.ok (v, sep :: rest)) :
    parseMembers (fuel + 1) (serializeMember key valueText ++ sep :: rest) acc =
      if sep = ',' then parseMembers fuel rest (setProperty acc key v)
      else if sep = '\x7d' then Except.ok (JsVal.obj (setProperty acc key v), rest)
      else Except.error ParseError.syntaxError := by
  rw [serializeMember, quoteJSONString]
  simp only [List.cons_append, List.append_assoc]
  rw [parseMembers, skipWs_cons _ _ (by decide)]
  simp only [↓reduceIte, parseString_quoteChars,
    skipWs_cons ':' _ (by decide), hv, skipWs_cons sep _ hsep]

theorem numberEnd_comma (rest : List Char) : NumberEnd (',' :: rest) := by
  intro c r h
  simp only [List.cons.injEq] at h
  rw [← h.1]
  decide

theorem numberEnd_brace (rest : List Char) : NumberEnd ('\x7d' :: rest) := by
  intro c r h
  simp only [List.cons.injEq] at h
  rw [← h.1]
  decide

theorem parseValue_serializeTransaction (fuel : Nat) (t : Transaction) (tail : List Char) :
    parseValue (fuel + 8) (serializeTransaction t ++ tail) = Except.ok (t.reloaded, tail) := by
  have hq : ∀ (k : String) (v r : List Char),
      skipWs (serializeMember k v ++ r) = serializeMember k v ++ r := by
    intro k v r
    rw [serializeMember, quoteJSONString]
    simp only [List.cons_append, List.append_assoc]
    rw [skipWs_cons _ _ (by decide)]
  have hhead : ∀ (k : String) (v r : List Char),
      ∃ r', serializeMember k v ++ r = '"' :: r' := by
    intro k v r
    refine ⟨quoteChars k.toList ++ ':' :: v ++ r, ?_⟩
    rw [serializeMember, quoteJSONString]
    simp only [List.cons_append]
  rw [serializeTransaction]
  simp only [List.cons_append, List.append_assoc, List.nil_append]
  rw [parseValue, skipWs_cons _ _ (by decide)]
  simp only [↓reduceIte]
  rw [hq]
  obtain ⟨r', hr'⟩ := hhead "id" (numberToString (Decimal.ofInt t.id))
    (',' :: (serializeMember "date" (quoteJSONString t.date) ++
      ',' :: (serializeMember "description" (quoteJSONString t.description) ++
      ',' :: (serializeMember "amount" (serializeNumber t.amount) ++
      ',' :: (serializeMember "category" (quoteJSONString t.category) ++
      ',' :: (serializeMember "type" (quoteJSONString t.type) ++ '\x7d' :: tail))))))
  rw [hr']
  simp only [show ('"' = '\x7d') = False from by decide, ↓reduceIte]
  rw [← hr']
  rw [parseMembers_member (fuel + 6) "id" _ _ ',' _ [] (by decide)
    (parseValue_number (fuel + 5) _ _ (numberEnd_comma _))]
  simp only [↓reduceIte]
  rw [parseMembers_member (fuel + 5) "date" _ _ ',' _ _ (by decide)
    (parseValue_string (fuel + 4) _ _)]
  simp only [↓reduceIte]
  rw [parseMembers_member (fuel + 4) "description" _ _ ',' _ _ (by decide)
    (parseValue_string (fuel + 3) _ _)]
  simp only [↓reduceIte]
  rw [parseMembers_member (fuel + 3) "amount" _ _ ',' _ _ (by decide)
    (parseValue_serializeNumber (fuel + 2) _ _ (numberEnd_comma _))]
  simp only [↓reduceIte]
  rw [parseMembers_member (fuel + 2) "category" _ _ ',' _ _ (by decide)
    (parseValue_string (fuel + 1) _ _)]
  simp only [↓reduceIte]
  rw [parseMembers_member (fuel + 1) "type" _ _ '\x7d' _ _ (by decide)
    (parseValue_string fuel _ _)]
  simp [setProperty, Transaction.reloaded]

theorem serializeTransaction_head (t : Transaction) (tail : List Char) :
    ∃ r, serializeTransaction t ++ tail = '\x7b' :: r := by
  refine ⟨(serializeTransaction t ++ tail).tail, ?_⟩
  rw [serializeTransaction]
  simp only [List.cons_append, List.append_assoc, List.tail_cons]

theorem serializeTransaction_length (t : Transaction) : 8 ≤ (serializeTransaction t).length := by
  rw [serializeTransaction]
  simp only [List.length_cons, List.length_append, serializeMember, quoteJSONString]
  omega

theorem serializeElements_length (t : Transaction) (ts : List Transaction) :
    ts.length + 8 ≤ (serializeElements t ts).length := by
  induction ts generalizing t with
  | nil =>
    have := serializeTransaction_length t
    simp only [serializeElements, List.length_append, List.length_nil]
    omega
  | cons u us ih =>
    have := serializeTransaction_length t
    have := ih u
    simp only [serializeElements, List.length_append, List.length_cons]
    omega

theorem parseElements_serializeElements (t : Transaction) (ts : List Transaction)
    (tail : List Char) (acc : List JsVal) (fuel : Nat) :
    parseElements (fuel + ts.length + 9) (serializeElements t ts ++ tail) acc =
      Except.ok (JsVal.arr (acc.reverse ++ (t :: ts).map Transaction.reloaded), tail) := by
  induction ts generalizing t acc fuel with
  | nil =>
    rw [serializeElements, List.append_assoc]
    show parseElements ((fuel + 8) + 1) _ _ = _
    rw [parseElements, parseValue_serializeTransaction fuel t]
    simp [skipWs_cons ']' _ (by decide)]
  | cons u us ih =>
    rw [serializeElements, List.append_assoc, List.cons_append]
    show parseElements ((fuel + us.length + 1 + 8) + 1) _ _ = _
    rw [parseElements, parseValue_serializeTransaction (fuel + us.length + 1) t]
    simp only [skipWs_cons ',' _ (by decide), ↓reduceIte]
    have := ih u (t.reloaded :: acc) fuel
    rw [show fuel + us.length + 1 + 8 = fuel + us.length + 9 by omega, this]
    simp

theorem jsonParse_stringify (ts : List Transaction) :
    jsonParse (stringify ts) = Except.ok (JsVal.arr (ts.map Transaction.reloaded)) := by
  cases ts with
  | nil => rfl
  | cons t us =>
    have hlen := serializeElements_length t us
    obtain ⟨r, hr⟩ := serializeTransaction_head t
      (match us with
        | [] => [']']
        | u :: us' => ',' :: serializeElements u us')
    have hr' : ∃ r, serializeElements t us = '\x7b' :: r := by
      cases us with
      | nil => exact ⟨r, by rw [serializeElements]; exact hr⟩
      | cons u us' => exact ⟨r, by rw [serializeElements]; exact hr⟩
    obtain ⟨r2, hr2⟩ := hr'
    have hpe := parseElements_serializeElements t us [] []
      (2 * (serializeElements t us).length + 3 - (us.length + 9))
    rw [show 2 * (serializeElements t us).length + 3 - (us.length + 9) + us.length + 9 =
      2 * (serializeElements t us).length + 3 by omega, List.append_nil] at hpe
    have hfuel : 2 * (stringify (t :: us)).length + 2 =
        (2 * (serializeElements t us).length + 3) + 1 := by
      simp only [stringify, String.length, List.length_cons]
      omega
    rw [jsonParse, hfuel]
    simp only [stringify, String.toList]
    rw [parseValue, skipWs_cons _ _ (by decide)]
    simp only [show ('[' = '\x7b') = False from by decide, ↓reduceIte]
    rw [hr2, skipWs_cons _ _ (by decide)]
    simp only [show ('\x7b' = ']') = False from by decide, ↓reduceIte]
    rw [← hr2, hpe]
    simp [skipWs]

theorem stringify_ne_empty (ts : List Transaction) : stringify ts ≠ "" := by
  cases ts with
  | nil => decide
  | cons t us =>
    intro h
    have := congrArg String.length h
    simp [stringify, String.length] at this

theorem loadFromStorage_saveToStorage (m : TransactionManager) :
    loadFromStorage (saveToStorage m).localStorage =
      Except.ok (JsVal.arr (m.transactions.map Transaction.reloaded)) := by
  simp only [saveToStorage, loadFromStorage, ne_eq, stringify_ne_empty, not_false_eq_true,
    ↓reduceIte, jsonParse_stringify]

/-! ### The parser never exhausts its fuel -/

theorem progress_mono {α : Type} {n k : Nat} {res : Except ParseError (α × List Char)}
    (h : Progress n res) (hnk : n ≤ k) : Progress k res := by
  cases res with
  | error e => exact h
  | ok p =>
    obtain ⟨v, r⟩ := p
    exact Nat.lt_of_lt_of_le h hnk

theorem skipWs_length_le (cs : List Char) : (skipWs cs).length ≤ cs.length :=
  (List.dropWhile_suffix isJsonWhiteSpace).length_le

theorem parseStringChars_progress (fuel : Nat) :
    ∀ (cs acc : List Char), cs.length < fuel →
      Progress cs.length (parseStringChars fuel cs acc) := by
  induction fuel with
  | zero => intro cs acc h; omega
  | succ fuel ih =>
    intro cs acc h
    cases cs with
    | nil => simp [parseStringChars, Progress]
    | cons c r =>
      simp only [parseStringChars, List.length_cons] at h ⊢
      split_ifs
      · simp [Progress]
      · split
        · simp [Progress]
        · rename_i e r1
          simp only [List.length_cons] at h ⊢
          split_ifs
          · split
            · rename_i h1 h2 h3 h4 r2
              simp only [List.length_cons] at h ⊢
              split
              · simp [Progress]
              · split_ifs
                · split
                  · rename_i b u l1 l2 l3 l4 r3
                    simp only [List.length_cons] at h ⊢
                    split_ifs
                    · split
                      · simp [Progress]
                      · split_ifs
                        · exact progress_mono (ih r3 _ (by omega)) (by omega)
                        · simp [Progress]
                    · simp [Progress]
                  · simp [Progress]
                · simp [Progress]
                · exact progress_mono (ih r2 _ (by omega)) (by omega)
            · simp [Progress]
          · split
            · exact progress_mono (ih r1 _ (by omega)) (by omega)
            · simp [Progress]
      · simp [Progress]
      · exact progress_mono (ih r _ (by omega)) (by omega)

theorem parseString_progress (cs : List Char) : Progress cs.length (parseString cs) := by
  have := parseStringChars_progress (cs.length + 1) cs [] (by omega)
  unfold parseString
  cases h : parseStringChars (cs.length + 1) cs [] with
  | error e => rw [h] at this; exact this
  | ok p =>
    obtain ⟨s, r⟩ := p
    rw [h] at this
    exact this


theorem dropWhile_length_le (p : Char → Bool) (cs : List Char) :
    (cs.dropWhile p).length ≤ cs.length :=
  (List.dropWhile_suffix p).length_le

theorem parseExponentDigits_progress (cs : List Char) :
    Progress (cs.length + 1) (parseExponentDigits cs) := by
  unfold parseExponentDigits
  have := dropWhile_length_le Char.isDigit cs
  split_ifs
  · simp [Progress]
  · simp only [Progress]; omega

theorem parseExponent_progress (cs : List Char) :
    Progress (cs.length + 1) (parseExponent cs) := by
  cases cs with
  | nil => simp [parseExponent, Progress]
  | cons c r =>
    simp only [parseExponent, List.length_cons]
    split_ifs
    · split
      · simp [Progress]
      · rename_i s r'
        have h1 := parseExponentDigits_progress r'
        have h2 := parseExponentDigits_progress (s :: r')
        simp only [List.length_cons] at h2 ⊢
        split_ifs
        · cases h : parseExponentDigits r' with
          | error e => rw [h] at h1; exact h1
          | ok p => obtain ⟨n, r''⟩ := p; rw [h] at h1; simp only [Progress] at h1 ⊢; omega
        · cases h : parseExponentDigits r' with
          | error e => rw [h] at h1; exact h1
          | ok p => obtain ⟨n, r''⟩ := p; rw [h] at h1; simp only [Progress] at h1 ⊢; omega
        · cases h : parseExponentDigits (s :: r') with
          | error e => rw [h] at h2; exact h2
          | ok p => obtain ⟨n, r''⟩ := p; rw [h] at h2; simp only [Progress] at h2 ⊢; omega
    · simp [Progress]

theorem parseFraction_progress (cs : List Char) :
    Progress (cs.length + 1) (parseFraction cs) := by
  cases cs with
  | nil => simp [parseFraction, Progress]
  | cons c r =>
    have := dropWhile_length_le Char.isDigit r
    simp only [parseFraction, List.length_cons]
    split_ifs
    · simp [Progress]
    · simp only [Progress]; omega
    · simp [Progress]

theorem parseIntegerPart_progress (cs : List Char) :
    Progress cs.length (parseIntegerPart cs) := by
  cases cs with
  | nil => simp [parseIntegerPart, Progress]
  | cons c r =>
    have := dropWhile_length_le Char.isDigit r
    simp only [parseIntegerPart, List.length_cons]
    split_ifs
    · simp [Progress]
    · simp only [Progress]; omega
    · simp [Progress]

theorem parseUnsigned_progress (cs : List Char) : Progress cs.length (parseUnsigned cs) := by
  have h1 := parseIntegerPart_progress cs
  cases hi : parseIntegerPart cs with
  | error e =>
    rw [hi] at h1
    simpa only [parseUnsigned, hi] using h1
  | ok p =>
    obtain ⟨ip, r1⟩ := p
    rw [hi] at h1
    have h2 := parseFraction_progress r1
    simp only [Progress] at h1
    cases hf : parseFraction r1 with
    | error e =>
      rw [hf] at h2
      simpa only [parseUnsigned, hi, hf] using h2
    | ok p =>
      obtain ⟨fp, r2⟩ := p
      rw [hf] at h2
      have h3 := parseExponent_progress r2
      simp only [Progress] at h2
      cases he : parseExponent r2 with
      | error e =>
        rw [he] at h3
        simpa only [parseUnsigned, hi, hf, he] using h3
      | ok p =>
        obtain ⟨ex, r3⟩ := p
        rw [he] at h3
        simp only [parseUnsigned, hi, hf, he, Progress] at h3 ⊢
        omega

theorem parseNumber_progress (cs : List Char) : Progress cs.length (parseNumber cs) := by
  cases cs with
  | nil => simp [parseNumber, Progress]
  | cons c r =>
    simp only [parseNumber, List.length_cons]
    split_ifs
    · have h1 := parseUnsigned_progress r
      cases h : parseUnsigned r with
      | error e => rw [h] at h1; exact h1
      | ok p => obtain ⟨q, r'⟩ := p; rw [h] at h1; simp only [Progress] at h1 ⊢; omega
    · exact parseUnsigned_progress (c :: r)


theorem progress_of_ok {α : Type} {n : Nat} {v : α} {r : List Char} (h : r.length < n) :
    Progress n (Except.ok (v, r) : Except ParseError (α × List Char)) := h

theorem parse_progress (fuel : Nat) :
    (∀ cs, 2 * cs.length + 1 ≤ fuel → Progress cs.length (parseValue fuel cs)) ∧
    (∀ cs acc, 2 * cs.length + 2 ≤ fuel → Progress cs.length (parseElements fuel cs acc)) ∧
    (∀ cs acc, 2 * cs.length + 1 ≤ fuel → Progress cs.length (parseMembers fuel cs acc)) := by
  induction fuel with
  | zero =>
    refine ⟨?_, ?_, ?_⟩ <;> intros <;> omega
  | succ fuel ih =>
    obtain ⟨ihV, ihE, ihM⟩ := ih
    refine ⟨?_, ?_, ?_⟩
    · intro cs hf
      have hws := skipWs_length_le cs
      cases hs : skipWs cs with
      | nil => simp [parseValue, hs, Progress]
      | cons c r =>
        rw [hs] at hws
        simp only [List.length_cons] at hws
        simp only [parseValue, hs]
        split_ifs
        · have hws2 := skipWs_length_le r
          cases hs2 : skipWs r with
          | nil => simp [Progress]
          | cons c' r' =>
            rw [hs2] at hws2
            simp only [List.length_cons] at hws2
            simp only
            split_ifs
            · exact progress_of_ok (by omega)
            · exact progress_mono (ihM (c' :: r') [] (by simp only [List.length_cons]; omega))
                (by simp only [List.length_cons]; omega)
        · have hws2 := skipWs_length_le r
          cases hs2 : skipWs r with
          | nil => simp [Progress]
          | cons c' r' =>
            rw [hs2] at hws2
            simp only [List.length_cons] at hws2
            simp only
            split_ifs
            · exact progress_of_ok (by omega)
            · exact progress_mono (ihE (c' :: r') [] (by simp only [List.length_cons]; omega))
                (by simp only [List.length_cons]; omega)
        · have hp := parseString_progress r
          cases h : parseString r with
          | error e => rw [h] at hp; exact hp
          | ok p =>
            obtain ⟨s, r'⟩ := p
            rw [h] at hp
            simp only [Progress] at hp ⊢
            omega
        · exact progress_of_ok (by simp only [List.length_drop]; omega)
        · simp [Progress]
        · exact progress_of_ok (by simp only [List.length_drop]; omega)
        · simp [Progress]
        · exact progress_of_ok (by simp only [List.length_drop]; omega)
        · simp [Progress]
        · have hp := parseNumber_progress (c :: r)
          cases h : parseNumber (c :: r) with
          | error e => rw [h] at hp; exact hp
          | ok p =>
            obtain ⟨q, r'⟩ := p
            rw [h] at hp
            simp only [Progress, List.length_cons] at hp ⊢
            omega
    · intro cs acc hf
      have hp := ihV cs (by omega)
      simp only [parseElements]
      cases h : parseValue fuel cs with
      | error e => rw [h] at hp; exact hp
      | ok p =>
        obtain ⟨v, r⟩ := p
        rw [h] at hp
        simp only [Progress] at hp
        simp only
        have hws := skipWs_length_le r
        cases hs : skipWs r with
        | nil => simp [Progress]
        | cons c r' =>
          rw [hs] at hws
          simp only [List.length_cons] at hws
          simp only
          split_ifs
          · exact progress_mono (ihE r' (v :: acc) (by omega)) (by omega)
          · exact progress_of_ok (by omega)
          · simp [Progress]
    · intro cs acc hf
      have hws := skipWs_length_le cs
      simp only [parseMembers]
      cases hs : skipWs cs with
      | nil => simp [Progress]
      | cons c r =>
        rw [hs] at hws
        simp only [List.length_cons] at hws
        simp only
        split_ifs
        · have hp := parseString_progress r
          cases h : parseString r with
          | error e => rw [h] at hp; exact hp
          | ok p =>
            obtain ⟨k, r1⟩ := p
            rw [h] at hp
            simp only [Progress] at hp
            simp only
            have hws1 := skipWs_length_le r1
            cases hs1 : skipWs r1 with
            | nil => simp [Progress]
            | cons c1 r2 =>
              rw [hs1] at hws1
              simp only [List.length_cons] at hws1
              simp only
              split_ifs
              · have hv := ihV r2 (by omega)
                cases h2 : parseValue fuel r2 with
                | error e => rw [h2] at hv; exact hv
                | ok p =>
                  obtain ⟨v, r3⟩ := p
                  rw [h2] at hv
                  simp only [Progress] at hv
                  simp only
                  have hws3 := skipWs_length_le r3
                  cases hs3 : skipWs r3 with
                  | nil => simp [Progress]
                  | cons c3 r4 =>
                    rw [hs3] at hws3
                    simp only [List.length_cons] at hws3
                    simp only
                    split_ifs
                    · exact progress_mono (ihM r4 _ (by omega)) (by omega)
                    · exact progress_of_ok (by omega)
                    · simp [Progress]
              · simp [Progress]
        · simp [Progress]

theorem jsonParse_ne_outOfFuel (text : String) :
    jsonParse text ≠ Except.error ParseError.outOfFuel := by
  have hp := (parse_progress (2 * text.length + 2)).1 text.toList (by
    show 2 * text.data.length + 1 ≤ 2 * text.length + 2
    simp only [String.length]
    omega)
  unfold jsonParse
  cases h : parseValue (2 * text.length + 2) text.toList with
  | error e =>
    rw [h] at hp
    simp only [Progress] at hp
    simpa using hp
  | ok p =>
    obtain ⟨v, r⟩ := p
    simp only
    split_ifs <;> simp

/-! ## The claims -/

/-- Claim C1, amended: when the clock readings of a sequence of
`addTransaction` calls are pairwise different and none of them is an id
already in the collection, whose ids are pairwise distinct, then the ids of the
returned records are pairwise distinct and so are the ids of the collection
after the calls. -/
theorem addTransactions_ids_nodup (calls : List (Int × TransactionInput))
    (m : TransactionManager)
    (hm : (m.transactions.map Transaction.id).Nodup)
    (hc : (calls.map Prod.fst).Nodup)
    (hd : ∀ now ∈ calls.map Prod.fst, now ∉ m.transactions.map Transaction.id) :
    ((addTransactions calls m).1.map Transaction.id).Nodup ∧
    ((addTransactions calls m).2.transactions.map Transaction.id).Nodup := by
  obtain ⟨h1, h2⟩ := addTransactions_ids calls m
  rw [h1, h2]
  refine ⟨hc, List.Nodup.append hm hc ?_⟩
  intro x hx hx2
  exact hd x hx2 hx

/-- Witness of C1, amended: the two candidates of the scenario added at two
different clock readings to the empty manager. -/
theorem addTransactions_ids_nodup_witness :
    (emptyManager.transactions.map Transaction.id).Nodup ∧
    (([(1700000000000, salary), (1700000000001, rent)] :
      List (Int × TransactionInput)).map Prod.fst).Nodup ∧
    ((addTransactions [(1700000000000, salary), (1700000000001, rent)]
      emptyManager).1.map Transaction.id).Nodup ∧
    ((addTransactions [(1700000000000, salary), (1700000000001, rent)]
      emptyManager).2.transactions.map Transaction.id).Nodup :=
  ⟨by decide, by decide,
    addTransactions_ids_nodup [(1700000000000, salary), (1700000000001, rent)] emptyManager
      (by decide) (by decide) (by decide)⟩

/-- Counterexample to C1 as stated: two `addTransaction` calls at the same
clock reading return records with the same id, and the collection then holds
two records with that id. -/
theorem addTransactions_same_clock_counterexample :
    ¬ ((addTransactions [(1700000000000, salary), (1700000000000, rent)]
        emptyManager).1.map Transaction.id).Nodup ∧
    ¬ ((addTransactions [(1700000000000, salary), (1700000000000, rent)]
        emptyManager).2.transactions.map Transaction.id).Nodup := by
  decide

/-- Claim C2, amended: when some record has the id `id`, the record returned by
`updateTransaction id updatedData` is stored at the position of the first such
record and its id is the one carried by `updatedData` when it carries one, and
the id the record had before otherwise. -/
theorem updateTransaction_id (id : Int) (updatedData : UpdatedData) (m : TransactionManager)
    (h : ∃ t ∈ m.transactions, t.id = id) :
    ∃ (i : Nat) (old r : Transaction), m.transactions[i]? = some old ∧ old.id = id ∧
      (TransactionManager.updateTransaction id updatedData m).1 = some r ∧
      (TransactionManager.updateTransaction id updatedData m).2.transactions[i]? = some r ∧
      (updatedData.id = none → r.id = old.id) ∧
      (∀ j, updatedData.id = some j → r.id = j) := by
  obtain ⟨i, old, hi, hold, hp⟩ := findIdx?_some_of_mem (fun t => decide (t.id = id))
    m.transactions (by obtain ⟨t, ht, e⟩ := h; exact ⟨t, ht, by simpa using e⟩)
  refine ⟨i, old, spread old updatedData, hold, by simpa using hp, ?_, ?_, ?_, ?_⟩
  · rw [updateTransaction_of_findIdx id updatedData m i old hi hold]
  · rw [updateTransaction_of_findIdx id updatedData m i old hi hold]
    simp [List.getElem?_modify_eq, hold]
  · intro hnone
    simp [spread, hnone]
  · intro j hj
    simp [spread, hj]

/-- Witness of C2, amended: an update of the amount of the first record of the
scenario. -/
theorem updateTransaction_id_witness :
    (∃ t ∈ scenarioManager.transactions, t.id = 1700000000000) ∧
    ∃ (i : Nat) (old r : Transaction), scenarioManager.transactions[i]? = some old ∧
      old.id = 1700000000000 ∧
      (TransactionManager.updateTransaction 1700000000000
        { amount := some (JsNum.fin 1200) } scenarioManager).1 = some r ∧
      (TransactionManager.updateTransaction 1700000000000
        { amount := some (JsNum.fin 1200) } scenarioManager).2.transactions[i]? = some r ∧
      ((({ amount := some (JsNum.fin 1200) } : UpdatedData).id = none) → r.id = old.id) ∧
      (∀ j, ({ amount := some (JsNum.fin 1200) } : UpdatedData).id = some j → r.id = j) :=
  ⟨⟨(TransactionManager.addTransaction 1700000000000 salary emptyManager).1,
      List.mem_cons_self _ _, rfl⟩,
    updateTransaction_id 1700000000000 { amount := some (JsNum.fin 1200) } scenarioManager
      ⟨(TransactionManager.addTransaction 1700000000000 salary emptyManager).1,
        List.mem_cons_self _ _, rfl⟩⟩

/-- Counterexample to C2 as stated: an `updatedData` that carries the id `2`
applied to the record of id `1` returns and stores a record of id `2`. -/
theorem updateTransaction_id_overwritten_counterexample :
    (TransactionManager.updateTransaction 1 { id := some 2 }
      { transactions := [⟨1, "2024-01-05", "Salary", JsNum.fin 1000, "Work", "Ingreso"⟩],
        localStorage := none }).1.map Transaction.id = some 2 ∧
    (TransactionManager.updateTransaction 1 { id := some 2 }
      { transactions := [⟨1, "2024-01-05", "Salary", JsNum.fin 1000, "Work", "Ingreso"⟩],
        localStorage := none }).2.transactions.map Transaction.id = [2] ∧
    (TransactionManager.updateTransaction 1 { id := some 2 }
      { transactions := [⟨1, "2024-01-05", "Salary", JsNum.fin 1000, "Work", "Ingreso"⟩],
        localStorage := none }).1.map Transaction.id ≠ some 1 := by
  decide

/-- Claim C4, amended: when no record of the collection has the clock reading
as id, `getTransaction` on the id of the record returned by `addTransaction`
returns that record. -/
theorem getTransaction_addTransaction (now : Int) (transaction : TransactionInput)
    (m : TransactionManager) (h : ∀ t ∈ m.transactions, t.id ≠ now) :
    TransactionManager.getTransaction (TransactionManager.addTransaction now transaction m).1.id
        (TransactionManager.addTransaction now transaction m).2 =
      some (TransactionManager.addTransaction now transaction m).1 := by
  simp only [TransactionManager.getTransaction, addTransaction_transactions,
    addTransaction_id, List.find?_append]
  have : m.transactions.find? (fun t => decide (t.id = now)) = none := by
    rw [List.find?_eq_none]
    intro x hx
    simpa using h x hx
  rw [this]
  simp [addTransaction_id]

/-- Witness of C4, amended: a third record added to the scenario at a later
clock reading. -/
theorem getTransaction_addTransaction_witness :
    (∀ t ∈ scenarioManager.transactions, t.id ≠ 1700000000002) ∧
    TransactionManager.getTransaction
        (TransactionManager.addTransaction 1700000000002 rent scenarioManager).1.id
        (TransactionManager.addTransaction 1700000000002 rent scenarioManager).2 =
      some (TransactionManager.addTransaction 1700000000002 rent scenarioManager).1 :=
  ⟨by decide, getTransaction_addTransaction 1700000000002 rent scenarioManager (by decide)⟩

/-- Counterexample to C4 as stated: after a first record was added at a clock
reading, a second `addTransaction` at the same reading returns a record `r`, and
`getTransaction` on the id of `r` returns the first record, not `r`. -/
theorem getTransaction_addTransaction_counterexample :
    TransactionManager.getTransaction
        (TransactionManager.addTransaction 1700000000000 rent
          (TransactionManager.addTransaction 1700000000000 salary emptyManager).2).1.id
        (TransactionManager.addTransaction 1700000000000 rent
          (TransactionManager.addTransaction 1700000000000 salary emptyManager).2).2 ≠
      some (TransactionManager.addTransaction 1700000000000 rent
          (TransactionManager.addTransaction 1700000000000 salary emptyManager).2).1 := by
  decide

/-- Claim C5, amended: after `deleteTransaction id`, `getTransaction id`
yields `undefined` exactly when at most one record of the collection had the
id `id`; `deleteTransaction` removes the first such record only. -/
theorem getTransaction_deleteTransaction (id : Int) (m : TransactionManager) :
    TransactionManager.getTransaction id (TransactionManager.deleteTransaction id m).2 = none ↔
      m.transactions.countP (fun t => decide (t.id = id)) ≤ 1 := by
  rw [TransactionManager.getTransaction, deleteTransaction_transactions]
  exact find?_eraseP_eq_none_iff _ _

/-- Counterexample to C5 as stated: in the collection built by two
`addTransaction` calls at the same clock reading, `getTransaction` still finds
a record of that id after `deleteTransaction`. -/
theorem getTransaction_deleteTransaction_counterexample :
    TransactionManager.getTransaction 1700000000000
      (TransactionManager.deleteTransaction 1700000000000
        (addTransactions [(1700000000000, salary), (1700000000000, rent)]
          emptyManager).2).2 ≠ none := by
  decide

/-- Claim C6: when a record has the id `id`, `updateTransaction id {amount: X}`
returns the first such record with its amount replaced by `X` (date,
description, category, type and id as before), stores it at the same position,
keeps the length of the collection and leaves every other position unchanged;
when no record has the id, it returns `null` and changes nothing. -/
theorem updateTransaction_amount (id : Int) (X : JsNum) (m : TransactionManager) :
    ((∃ t ∈ m.transactions, t.id = id) →
      ∃ (i : Nat) (old : Transaction),
        m.transactions[i]? = some old ∧ old.id = id ∧
        (∀ j t, j < i → m.transactions[j]? = some t → t.id ≠ id) ∧
        (TransactionManager.updateTransaction id { amount := some X } m).1 =
          some { old with amount := X } ∧
        (TransactionManager.updateTransaction id { amount := some X } m).2.transactions.length =
          m.transactions.length ∧
        (TransactionManager.updateTransaction id { amount := some X } m).2.transactions[i]? =
          some { old with amount := X } ∧
        ∀ j, j ≠ i →
          (TransactionManager.updateTransaction id { amount := some X } m).2.transactions[j]? =
            m.transactions[j]?) ∧
    ((∀ t ∈ m.transactions, t.id ≠ id) →
      TransactionManager.updateTransaction id { amount := some X } m = (none, m)) := by
  constructor
  · intro h
    obtain ⟨i, old, hi, hold, hp⟩ := findIdx?_some_of_mem (fun t => decide (t.id = id))
      m.transactions (by obtain ⟨t, ht, e⟩ := h; exact ⟨t, ht, by simpa using e⟩)
    have hfirst : ∀ j t, j < i → m.transactions[j]? = some t → t.id ≠ id := by
      intro j t hj ht
      obtain ⟨hil, -, hmin⟩ := List.findIdx?_eq_some_iff_getElem.mp hi
      have := hmin j hj
      obtain ⟨hjl, hjt⟩ := List.getElem?_eq_some.mp ht
      rw [hjt] at this
      simpa using this
    have hs : spread old { amount := some X } = { old with amount := X } := rfl
    refine ⟨i, old, hold, by simpa using hp, hfirst, ?_, ?_, ?_, ?_⟩
    · rw [updateTransaction_of_findIdx id _ m i old hi hold, hs]
    · rw [updateTransaction_of_findIdx id _ m i old hi hold]
      simp
    · rw [updateTransaction_of_findIdx id _ m i old hi hold]
      simp [List.getElem?_modify_eq, hold, hs]
    · intro j hj
      rw [updateTransaction_of_findIdx id _ m i old hi hold]
      simp [List.getElem?_modify_ne, Ne.symm hj]
  · intro h
    have : m.transactions.findIdx? (fun t => decide (t.id = id)) = none := by
      rw [List.findIdx?_eq_none_iff]
      intro x hx
      simpa using h x hx
    simp [TransactionManager.updateTransaction, this]

/-- Witness of C6: on the scenario, the record of id `1700000000001` exists and
no record has the id `5`. -/
theorem updateTransaction_amount_witness :
    (∃ t ∈ scenarioManager.transactions, t.id = 1700000000001) ∧
    (∀ t ∈ scenarioManager.transactions, t.id ≠ 5) ∧
    (∃ (i : Nat) (old : Transaction),
        scenarioManager.transactions[i]? = some old ∧ old.id = 1700000000001 ∧
        (∀ j t, j < i → scenarioManager.transactions[j]? = some t → t.id ≠ 1700000000001) ∧
        (TransactionManager.updateTransaction 1700000000001 { amount := some (JsNum.fin 450) }
          scenarioManager).1 = some { old with amount := JsNum.fin 450 } ∧
        (TransactionManager.updateTransaction 1700000000001 { amount := some (JsNum.fin 450) }
          scenarioManager).2.transactions.length = scenarioManager.transactions.length ∧
        (TransactionManager.updateTransaction 1700000000001 { amount := some (JsNum.fin 450) }
          scenarioManager).2.transactions[i]? = some { old with amount := JsNum.fin 450 } ∧
        ∀ j, j ≠ i →
          (TransactionManager.updateTransaction 1700000000001 { amount := some (JsNum.fin 450) }
            scenarioManager).2.transactions[j]? = scenarioManager.transactions[j]?) ∧
    TransactionManager.updateTransaction 5 { amount := some (JsNum.fin 450) } scenarioManager =
      (none, scenarioManager) :=
  ⟨by decide, by decide,
    (updateTransaction_amount 1700000000001 (JsNum.fin 450) scenarioManager).1 (by decide),
    (updateTransaction_amount 5 (JsNum.fin 450) scenarioManager).2 (by decide)⟩

/-- Claim C7: `getCalculations` returns as `ingresos` the sum of the amounts of
the records of type `'Ingreso'`, as `egresos` the sum of the amounts of the
records of type `'Egreso'` and as `balance` their difference; the sum and the
difference of finite amounts are the exact sum and difference of rationals;
for the empty collection the three are `0`; and after the two candidates of
the scenario have been added to an empty collection the three are `1000`,
`400` and `600`. -/
theorem getCalculations_sums :
    (∀ m : TransactionManager,
      (TransactionManager.getCalculations m).ingresos =
        ((m.transactions.filter (fun t => decide (t.type = "Ingreso"))).map
          Transaction.amount).sum ∧
      (TransactionManager.getCalculations m).egresos =
        ((m.transactions.filter (fun t => decide (t.type = "Egreso"))).map
          Transaction.amount).sum ∧
      (TransactionManager.getCalculations m).balance =
        JsNum.sub (TransactionManager.getCalculations m).ingresos
          (TransactionManager.getCalculations m).egresos) ∧
    (∀ ds : List Decimal, ∃ d : Decimal,
      (ds.map JsNum.fin).sum = JsNum.fin d ∧ d.1 = (ds.map Subtype.val).sum) ∧
    (∀ a b : Decimal, ∃ d : Decimal,
      JsNum.sub (JsNum.fin a) (JsNum.fin b) = JsNum.fin d ∧ d.1 = a.1 - b.1) ∧
    (∀ data : Option String,
      TransactionManager.getCalculations { transactions := [], localStorage := data } =
        { ingresos := JsNum.fin 0, egresos := JsNum.fin 0, balance := JsNum.fin 0 }) ∧
    (∀ (now1 now2 : Int) (data : Option String),
      TransactionManager.getCalculations
          (addTransactions [(now1, salary), (now2, rent)]
            { transactions := [], localStorage := data }).2 =
        { ingresos := JsNum.fin 1000, egresos := JsNum.fin 400, balance := JsNum.fin 600 }) := by
  refine ⟨?_, ?_, ?_, ?_, ?_⟩
  · intro m
    simp only [TransactionManager.getCalculations, foldl_add_amount, jsNum_zero_add,
      and_self]
  · intro ds
    induction ds with
    | nil => exact ⟨Decimal.ofInt 0, rfl, by simp [decimal_ofInt_val]⟩
    | cons a ds ih =>
      obtain ⟨d, hd, hv⟩ := ih
      refine ⟨Decimal.add a d, ?_, ?_⟩
      · rw [List.map_cons, List.sum_cons, hd]
        rfl
      · rw [List.map_cons, List.sum_cons, decimal_add_val, hv]
  · intro a b
    exact ⟨Decimal.add a (Decimal.neg b), rfl, by
      rw [decimal_add_val, decimal_neg_val, sub_eq_add_neg]⟩
  · intro data
    have h0 : Decimal.add 0 (Decimal.neg 0) = 0 :=
      Subtype.ext (by
        rw [decimal_add_val, decimal_neg_val, decimal_ofNat_val]
        simp)
    have h1 : Decimal.ofInt 0 = 0 := rfl
    simp [TransactionManager.getCalculations, JsNum.sub, JsNum.neg, JsNum.add, JsNum.zero,
      h0, h1]
  · intro now1 now2 data
    have h1 : parseFloat "1000" = JsNum.fin 1000 := by decide!
    have h2 : parseFloat "400" = JsNum.fin 400 := by decide!
    have e1 : Decimal.add (Decimal.ofInt 0) 1000 = 1000 := decimal_zero_add _
    have e2 : Decimal.add (Decimal.ofInt 0) 400 = 400 := decimal_zero_add _
    have e3 : Decimal.add 1000 (Decimal.neg 400) = 600 :=
      Subtype.ext (by
        rw [decimal_add_val, decimal_neg_val, decimal_ofNat_val, decimal_ofNat_val,
          decimal_ofNat_val]
        norm_num)
    simp [addTransactions, TransactionManager.addTransaction, TransactionManager.saveToStorage,
      TransactionManager.getCalculations, salary, rent, h1, h2, JsNum.add, JsNum.zero,
      JsNum.sub, JsNum.neg, e1, e2, e3]

/-- When the date of every record is a valid date, `getSortedTransactions`
returns a permutation of the stored collection that is ordered by date
descending and in which the records of equal date keep their relative order;
the state is unchanged by the call. -/
theorem getSortedTransactions_of_valid_dates (timeValue : String → Option Int)
    (m : TransactionManager)
    (hvalid : ∀ t ∈ m.transactions, (timeValue t.date).isSome = true) :
    (TransactionManager.getSortedTransactions timeValue m).1.Perm m.transactions ∧
    (TransactionManager.getSortedTransactions timeValue m).1.Pairwise
      (fun a b => ∀ ta tb, timeValue a.date = some ta → timeValue b.date = some tb →
        tb ≤ ta) ∧
    (∀ d : Int,
      (TransactionManager.getSortedTransactions timeValue m).1.filter
          (fun t => decide (timeValue t.date = some d)) =
        m.transactions.filter (fun t => decide (timeValue t.date = some d))) ∧
    (TransactionManager.getSortedTransactions timeValue m).2 = m := by
  have hkey : ∀ t ∈ m.transactions,
      timeValue t.date = some ((timeValue t.date).getD 0) := by
    intro t ht
    obtain ⟨a, ha⟩ := Option.isSome_iff_exists.mp (hvalid t ht)
    simp [ha]
  obtain ⟨h1, h2, h3⟩ := arraySortV8_spec (TransactionManager.compareByDate timeValue)
    (fun t => (timeValue t.date).getD 0) m.transactions (by
      intro x hx y hy
      rw [TransactionManager.compareByDate, hkey x hx, hkey y hy])
  refine ⟨h1, ?_, ?_, rfl⟩
  · refine h2.imp ?_
    intro a b hab ta tb hta htb
    simpa [hta, htb] using hab
  · intro d
    have hiff : ∀ l : List Transaction, (∀ t ∈ l, t ∈ m.transactions) →
        l.filter (fun t => decide (timeValue t.date = some d)) =
          l.filter (fun t => decide ((timeValue t.date).getD 0 = d)) := by
      intro l hl
      apply List.filter_congr
      intro t ht
      rw [hkey t (hl t ht)]
      simp
    show (arraySortV8 _ m.transactions).filter _ = _
    rw [hiff _ (fun t ht => h1.mem_iff.mp ht), hiff _ (fun t ht => ht)]
    exact h3 d

/-- Claim C8, the code at the failing input: on the seven records of
`invalidDateManager`, the third of which has the empty string as date, the
sorted copy holds the records in the order 2, 4, 5, 7, 1, 3, 6.  The record of
2024-01-01 precedes a record of 2024-01-02, so the copy is not ordered by date
descending, and the records 6 and 7, of the same date, have changed their
relative order. -/
theorem getSortedTransactions_invalid_date :
    (TransactionManager.getSortedTransactions isoTimeValue invalidDateManager).1.map
      Transaction.id = [2, 4, 5, 7, 1, 3, 6] ∧
    (TransactionManager.getSortedTransactions isoTimeValue invalidDateManager).1.map
      Transaction.date =
        ["2024-01-02", "2024-01-02", "2024-01-02", "2024-01-02", "2024-01-01", "",
          "2024-01-02"] ∧
    ¬ (TransactionManager.getSortedTransactions isoTimeValue invalidDateManager).1.Pairwise
      (fun a b => ∀ ta tb, isoTimeValue a.date = some ta → isoTimeValue b.date = some tb →
        tb ≤ ta) ∧
    ((TransactionManager.getSortedTransactions isoTimeValue invalidDateManager).1.filter
        (fun t => decide (t.date = "2024-01-02"))).map Transaction.id = [2, 4, 5, 7, 6] ∧
    (invalidDateManager.transactions.filter
        (fun t => decide (t.date = "2024-01-02"))).map Transaction.id = [2, 4, 5, 6, 7] := by
  have hd : (TransactionManager.getSortedTransactions isoTimeValue invalidDateManager).1.map
      Transaction.date =
        ["2024-01-02", "2024-01-02", "2024-01-02", "2024-01-02", "2024-01-01", "",
          "2024-01-02"] := by decide
  refine ⟨by decide, hd, ?_, by decide, by decide⟩
  intro h
  have h' : ((TransactionManager.getSortedTransactions isoTimeValue invalidDateManager).1.map
      Transaction.date).Pairwise
      (fun d e => ∀ ta tb, isoTimeValue d = some ta → isoTimeValue e = some tb → tb ≤ ta) :=
    List.pairwise_map.mpr h
  rw [hd] at h'
  have h1 : isoTimeValue "2024-01-01" = some 1704067200000 := by decide
  have h2 : isoTimeValue "2024-01-02" = some 1704153600000 := by decide
  simp [h1, h2] at h'

/-- Claim C9, amended: `filterTransactions searchTerm` returns, in stored
order, exactly the records for which the lower case of the search term occurs
as a substring of the lower case of the description or of the category, lower
case being taken by `toLowerCase`; with the empty search term it returns all
records; when search term, description and category hold neither the capital
sigma nor the capital I with dot above, a record is returned exactly when a
substring of its description or category equals the search term up to the case
of the letters; and in Basic Latin that is up to the case of `A` to `Z`,
whatever the tables of the platform. -/
theorem filterTransactions_lowerCase (T : CaseTables) (m : TransactionManager) :
    (∀ searchTerm : String,
      TransactionManager.filterTransactions T searchTerm m =
        m.transactions.filter (fun t => decide
          ((toLowerCase T searchTerm).toList <:+: (toLowerCase T t.description).toList ∨
           (toLowerCase T searchTerm).toList <:+: (toLowerCase T t.category).toList))) ∧
    TransactionManager.filterTransactions T "" m = m.transactions ∧
    (∀ (searchTerm : String) (t : Transaction), t ∈ m.transactions →
      simplyCased searchTerm = true → simplyCased t.description = true →
      simplyCased t.category = true →
      (t ∈ TransactionManager.filterTransactions T searchTerm m ↔
        ∃ u : List Char, (u <:+: t.description.toList ∨ u <:+: t.category.toList) ∧
          u.map (lowerChar T) = searchTerm.toList.map (lowerChar T))) ∧
    (∀ (searchTerm : String) (t : Transaction), t ∈ m.transactions →
      isBasicLatin searchTerm = true → isBasicLatin t.description = true →
      isBasicLatin t.category = true →
      (t ∈ TransactionManager.filterTransactions T searchTerm m ↔
        ∃ u : List Char, (u <:+: t.description.toList ∨ u <:+: t.category.toList) ∧
          u.map Char.toLower = searchTerm.toList.map Char.toLower)) := by
  have main : ∀ searchTerm : String,
      TransactionManager.filterTransactions T searchTerm m =
        m.transactions.filter (fun t => decide
          ((toLowerCase T searchTerm).toList <:+: (toLowerCase T t.description).toList ∨
           (toLowerCase T searchTerm).toList <:+: (toLowerCase T t.category).toList)) := by
    intro searchTerm
    unfold TransactionManager.filterTransactions
    congr 1
    funext t
    rw [Bool.eq_iff_iff]
    simp [includes, includesChars_iff]
  have simple : ∀ (searchTerm : String) (t : Transaction), t ∈ m.transactions →
      simplyCased searchTerm = true → simplyCased t.description = true →
      simplyCased t.category = true →
      (t ∈ TransactionManager.filterTransactions T searchTerm m ↔
        ∃ u : List Char, (u <:+: t.description.toList ∨ u <:+: t.category.toList) ∧
          u.map (lowerChar T) = searchTerm.toList.map (lowerChar T)) := by
    intro searchTerm t ht hs hd hcat
    rw [TransactionManager.filterTransactions, List.mem_filter, Bool.or_eq_true,
      matches_iff T searchTerm t.description hs hd, matches_iff T searchTerm t.category hs hcat]
    constructor
    · rintro ⟨-, ⟨u, hu, he⟩ | ⟨u, hu, he⟩⟩
      · exact ⟨u, Or.inl hu, he⟩
      · exact ⟨u, Or.inr hu, he⟩
    · rintro ⟨u, hu | hu, he⟩
      · exact ⟨ht, Or.inl ⟨u, hu, he⟩⟩
      · exact ⟨ht, Or.inr ⟨u, hu, he⟩⟩
  refine ⟨main, ?_, simple, ?_⟩
  · rw [main, toLowerCase_empty]
    simp
  · intro searchTerm t ht hs hd hcat
    rw [simple searchTerm t ht (simplyCased_of_isBasicLatin _ hs)
      (simplyCased_of_isBasicLatin _ hd) (simplyCased_of_isBasicLatin _ hcat)]
    have hterm : ∀ c ∈ searchTerm.toList, c.toNat < 128 := by
      intro c hc
      simpa using List.all_eq_true.mp hs c hc
    have hu : ∀ u : List Char, (u <:+: t.description.toList ∨ u <:+: t.category.toList) →
        ∀ c ∈ u, c.toNat < 128 := by
      intro u hu c hc
      rcases hu with hu | hu
      · simpa using List.all_eq_true.mp hd c (hu.subset hc)
      · simpa using List.all_eq_true.mp hcat c (hu.subset hc)
    constructor
    · rintro ⟨u, hinf, he⟩
      refine ⟨u, hinf, ?_⟩
      rw [← map_lowerChar_of_basicLatin T u (hu u hinf),
        ← map_lowerChar_of_basicLatin T _ hterm]
      exact he
    · rintro ⟨u, hinf, he⟩
      refine ⟨u, hinf, ?_⟩
      rw [map_lowerChar_of_basicLatin T u (hu u hinf),
        map_lowerChar_of_basicLatin T _ hterm]
      exact he

/-- Witness of C9, amended: on the scenario the search term `WORK` selects the
record of category `Work`, of which the substring `Work` equals the term up to
case. -/
theorem filterTransactions_lowerCase_witness :
    (TransactionManager.addTransaction 1700000000000 salary emptyManager).1 ∈
      scenarioManager.transactions ∧
    isBasicLatin "WORK" = true ∧
    isBasicLatin (TransactionManager.addTransaction 1700000000000 salary
      emptyManager).1.description = true ∧
    isBasicLatin (TransactionManager.addTransaction 1700000000000 salary
      emptyManager).1.category = true ∧
    (TransactionManager.filterTransactions greekCaseTables "WORK" scenarioManager).map
      Transaction.description = ["Salary"] ∧
    ((TransactionManager.addTransaction 1700000000000 salary emptyManager).1 ∈
        TransactionManager.filterTransactions greekCaseTables "WORK" scenarioManager ↔
      ∃ u : List Char,
        (u <:+: (TransactionManager.addTransaction 1700000000000 salary
            emptyManager).1.description.toList ∨
          u <:+: (TransactionManager.addTransaction 1700000000000 salary
            emptyManager).1.category.toList) ∧
        u.map Char.toLower = "WORK".toList.map Char.toLower) :=
  ⟨List.mem_cons_self _ _, by decide, by decide, by decide, by decide,
    (filterTransactions_lowerCase greekCaseTables scenarioManager).2.2.2 "WORK"
      (TransactionManager.addTransaction 1700000000000 salary emptyManager).1
      (List.mem_cons_self _ _) (by decide) (by decide) (by decide)⟩

/-- Counterexample to C9 as stated: the description `ΑΣ` contains the search
term `Σ` as it is written, yet `filterTransactions` does not return the
record: the lower case of the description ends in the final small sigma, the
lower case of the term is the other small sigma. -/
theorem filterTransactions_final_sigma_counterexample :
    "Σ".toList <:+: "ΑΣ".toList ∧
    sigmaManager.transactions.map Transaction.description = ["ΑΣ"] ∧
    toLowerCase greekCaseTables "ΑΣ" = "ας" ∧
    toLowerCase greekCaseTables "Σ" = "σ" ∧
    TransactionManager.filterTransactions greekCaseTables "Σ" sigmaManager = [] := by
  decide

theorem reloaded_of_isFinite (t : Transaction) (h : t.amount.isFinite = true) :
    t.reloaded = t.toJsVal := by
  cases ha : t.amount with
  | fin q => simp [Transaction.reloaded, Transaction.toJsVal, JsNum.reloaded, ha]
  | nan => rw [ha] at h; exact absurd h (by decide)
  | posInf => rw [ha] at h; exact absurd h (by decide)
  | negInf => rw [ha] at h; exact absurd h (by decide)

theorem map_reloaded_of_allFinite (ts : List Transaction) (h : allFinite ts = true) :
    ts.map Transaction.reloaded = ts.map Transaction.toJsVal := by
  apply List.map_congr_left
  intro t ht
  exact reloaded_of_isFinite t (List.all_eq_true.mp h t ht)

theorem synced_of_saved (m : TransactionManager)
    (hs : m.localStorage = some (stringify m.transactions))
    (hf : allFinite m.transactions = true) : Synced m := by
  have h := loadFromStorage_saveToStorage m
  simp only [TransactionManager.saveToStorage] at h
  rw [Synced, hs, h, collectionValue, map_reloaded_of_allFinite _ hf]

theorem updateTransaction_saved (id : Int) (u : UpdatedData) (m : TransactionManager)
    (h : ∃ t ∈ m.transactions, t.id = id) :
    (updateTransaction id u m).2.localStorage =
      some (stringify (updateTransaction id u m).2.transactions) := by
  obtain ⟨i, old, hi, hold, -⟩ := findIdx?_some_of_mem (fun t => decide (t.id = id))
    m.transactions (by obtain ⟨t, ht, e⟩ := h; exact ⟨t, ht, by simpa using e⟩)
  rw [updateTransaction_of_findIdx id u m i old hi hold]

theorem deleteTransaction_saved (id : Int) (m : TransactionManager)
    (h : ∃ t ∈ m.transactions, t.id = id) :
    (deleteTransaction id m).2.localStorage =
      some (stringify (deleteTransaction id m).2.transactions) := by
  obtain ⟨i, old, hi, -, -⟩ := findIdx?_some_of_mem (fun t => decide (t.id = id))
    m.transactions (by obtain ⟨t, ht, e⟩ := h; exact ⟨t, ht, by simpa using e⟩)
  simp [deleteTransaction, hi, saveToStorage]

theorem deleteTransaction_not_found (id : Int) (m : TransactionManager)
    (h : ∀ t ∈ m.transactions, t.id ≠ id) : deleteTransaction id m = (false, m) := by
  have : m.transactions.findIdx? (fun t => decide (t.id = id)) = none := by
    rw [List.findIdx?_eq_none_iff]
    intro x hx
    simpa using h x hx
  simp [deleteTransaction, this]

theorem updateTransaction_not_found (id : Int) (u : UpdatedData) (m : TransactionManager)
    (h : ∀ t ∈ m.transactions, t.id ≠ id) : updateTransaction id u m = (none, m) := by
  have : m.transactions.findIdx? (fun t => decide (t.id = id)) = none := by
    rw [List.findIdx?_eq_none_iff]
    intro x hx
    simpa using h x hx
  simp [updateTransaction, this]

/-- Claim C3, amended: the constructor, whose outcome is that of
`loadFromStorage`, yields the empty collection when the entry is absent or the
empty string, the parsed value on every other text that `JSON.parse` accepts
(on the text written by `saveToStorage` the array of the records, a non finite
amount read back as `null`), and fails with the exception of `JSON.parse` on a
non empty text that cannot be parsed; the model of `JSON.parse` never stops for
lack of fuel. -/
theorem loadFromStorage_cases :
    loadFromStorage none = Except.ok (JsVal.arr []) ∧
    loadFromStorage (some "") = Except.ok (JsVal.arr []) ∧
    (∀ ts : List Transaction,
      loadFromStorage (some (stringify ts)) =
        Except.ok (JsVal.arr (ts.map Transaction.reloaded))) ∧
    (∀ text : String, text ≠ "" → loadFromStorage (some text) = jsonParse text) ∧
    (∀ data : Option String, loadFromStorage data ≠ Except.error ParseError.outOfFuel) := by
  refine ⟨rfl, rfl, ?_, ?_, ?_⟩
  · intro ts
    exact loadFromStorage_saveToStorage { transactions := ts, localStorage := none }
  · intro text h
    simp [loadFromStorage, h]
  · intro data
    cases data with
    | none => simp [loadFromStorage]
    | some text =>
      by_cases h : text = ""
      · simp [loadFromStorage, h]
      · simp only [loadFromStorage, ne_eq, h, not_false_eq_true, ↓reduceIte]
        exact jsonParse_ne_outOfFuel text

/-- Witness of C3, amended: the text `[]` is not empty and the constructor
reads the empty array from it. -/
theorem loadFromStorage_cases_witness :
    ("[]" : String) ≠ "" ∧ loadFromStorage (some "[]") = Except.ok (JsVal.arr []) :=
  ⟨by decide, (loadFromStorage_cases.2.2.2.1 "[]" (by decide)).trans rfl⟩

/-- Counterexample to C3 as stated: on the stored text `not json` the
constructor fails with the `SyntaxError` of `JSON.parse`; it yields no
collection, empty or not. -/
theorem loadFromStorage_unparseable_counterexample :
    loadFromStorage (some "not json") = Except.error ParseError.syntaxError ∧
    ¬ ∃ v, loadFromStorage (some "not json") = Except.ok v := by
  have h : loadFromStorage (some "not json") = Except.error ParseError.syntaxError := rfl
  refine ⟨h, ?_⟩
  rintro ⟨v, hv⟩
  rw [h] at hv
  cases hv

/-- Claim C10, amended: for a collection whose amounts are all finite,
`saveToStorage` followed by `loadFromStorage` yields the collection; hence
after `addTransaction`, after `clearAll`, and after an `updateTransaction` or
a `deleteTransaction` that finds its record, a manager constructed from the
backend holds the collection in memory, provided the amounts in memory are all
finite; an `updateTransaction` or `deleteTransaction` that finds no record
writes nothing and leaves the state as it was. -/
theorem saveToStorage_loadFromStorage (m : TransactionManager) :
    (allFinite m.transactions = true → Synced (TransactionManager.saveToStorage m)) ∧
    (∀ (now : Int) (transaction : TransactionInput),
      allFinite (TransactionManager.addTransaction now transaction m).2.transactions = true →
      Synced (TransactionManager.addTransaction now transaction m).2) ∧
    (∀ (id : Int) (updatedData : UpdatedData),
      ((∃ t ∈ m.transactions, t.id = id) →
        allFinite (TransactionManager.updateTransaction id updatedData m).2.transactions = true →
        Synced (TransactionManager.updateTransaction id updatedData m).2) ∧
      ((∀ t ∈ m.transactions, t.id ≠ id) →
        (TransactionManager.updateTransaction id updatedData m).2 = m)) ∧
    (∀ id : Int,
      ((∃ t ∈ m.transactions, t.id = id) →
        allFinite (TransactionManager.deleteTransaction id m).2.transactions = true →
        Synced (TransactionManager.deleteTransaction id m).2) ∧
      ((∀ t ∈ m.transactions, t.id ≠ id) →
        (TransactionManager.deleteTransaction id m).2 = m)) ∧
    Synced (TransactionManager.clearAll m) := by
  refine ⟨?_, ?_, ?_, ?_, ?_⟩
  · intro hf
    exact synced_of_saved _ rfl hf
  · intro now transaction hf
    exact synced_of_saved _ rfl hf
  · intro id updatedData
    refine ⟨fun h hf => synced_of_saved _ (updateTransaction_saved id updatedData m h) hf, ?_⟩
    intro h
    rw [updateTransaction_not_found id updatedData m h]
  · intro id
    refine ⟨fun h hf => synced_of_saved _ (deleteTransaction_saved id m h) hf, ?_⟩
    intro h
    rw [deleteTransaction_not_found id m h]
  · exact synced_of_saved _ rfl rfl

/-- Witness of C10, amended: the scenario, whose two amounts are finite, saved
and read back, and a third record added to it. -/
theorem saveToStorage_loadFromStorage_witness :
    allFinite scenarioManager.transactions = true ∧
    Synced (TransactionManager.saveToStorage scenarioManager) ∧
    allFinite (TransactionManager.addTransaction 1700000000002 rent
      scenarioManager).2.transactions = true ∧
    Synced (TransactionManager.addTransaction 1700000000002 rent scenarioManager).2 :=
  ⟨by decide, (saveToStorage_loadFromStorage scenarioManager).1 (by decide), by decide,
    (saveToStorage_loadFromStorage scenarioManager).2.1 1700000000002 rent (by decide)⟩

/-- Counterexample to C10 as stated: `addTransaction` with the amount text
`abc` stores the amount `NaN`, `saveToStorage` writes it as `null`, and a
manager constructed from the backend holds `null` as amount, which is not the
collection in memory. -/
theorem saveToStorage_loadFromStorage_nan_counterexample :
    ¬ Synced (TransactionManager.addTransaction 1700000000000
        ⟨"2024-01-05", "Salary", "abc", "Work", "Ingreso"⟩ emptyManager).2 := by
  intro h
  have hl := loadFromStorage_saveToStorage
    { transactions := emptyManager.transactions ++
        [(TransactionManager.addTransaction 1700000000000
          ⟨"2024-01-05", "Salary", "abc", "Work", "Ingreso"⟩ emptyManager).1],
      localStorage := emptyManager.localStorage }
  have hn : parseFloat "abc" = JsNum.nan := by decide
  rw [Synced] at h
  simp only [TransactionManager.addTransaction, TransactionManager.saveToStorage] at h hl
  rw [hl] at h
  simp [collectionValue, Transaction.reloaded, Transaction.toJsVal, JsNum.reloaded, hn,
    emptyManager] at h

end RegistroContable
